import Mathlib

/-!
# A verification development for the cargox resolution-and-installation pipeline

Shallow embedding of the cargox sources (`src/main.rs`, `src/target.rs`,
`src/registry.rs`, `src/installer.rs`, `src/paths.rs`, `src/executor.rs`).

Strings are modelled as lists of characters (`Str`).  The ambient process
environment and the filesystem are modelled as partial maps.  The pure parts
of the code (spec parsing, registry version selection, environment
sanitisation, installation finalisation, path resolution) are translated
function by function; process-spawning operations are represented by the
data they are invoked with (environment-edit operation lists, backend
choices), so that the number of external-tool invocations and the child
environment can be reasoned about.
-/

namespace Cargox

/-- Strings are modelled as lists of characters. -/
abbrev Str := List Char

/-- Coerce a Lean string literal into the `Str` model. -/
def str (s : String) : Str := s.data

/-- Whitespace test used by `trimStr` (model of `char::is_whitespace`
restricted to the ASCII whitespace characters that occur in practice). -/
def isWs (c : Char) : Bool := c = ' ' || c = '\t' || c = '\n' || c = '\r'

/-- Model of Rust `str::trim`: drop whitespace from both ends. -/
def trimStr (s : Str) : Str := ((s.dropWhile isWs).reverse.dropWhile isWs).reverse

/-- Model of Rust `str::split(c)`: split at every occurrence of `c`,
keeping empty segments (`"" ↦ [""]`, `"a@@b" ↦ ["a", "", "b"]`). -/
def splitOnChar (c : Char) : Str → List Str
  | [] => [[]]
  | x :: xs =>
    match splitOnChar c xs with
    | [] => [[]]
    | p :: ps => if x = c then [] :: p :: ps else (x :: p) :: ps

/-- Split at the first occurrence of `c`, if any. -/
def splitFirst (c : Char) : Str → Option (Str × Str)
  | [] => none
  | x :: xs =>
    if x = c then some ([], xs)
    else (splitFirst c xs).map (fun p => (x :: p.1, p.2))

/-- ASCII digit test (model of `u8::is_ascii_digit`): code points 48-57. -/
def isDigitChar (c : Char) : Bool := 48 ≤ c.toNat && c.toNat ≤ 57

/-- ASCII letter test (model of `u8::is_ascii_alphabetic`):
code points 65-90 and 97-122. -/
def isAlphaChar (c : Char) : Bool :=
  (65 ≤ c.toNat && c.toNat ≤ 90) || (97 ≤ c.toNat && c.toNat ≤ 122)

/-- ASCII lower-casing of one character (model of `u8::to_ascii_lowercase`):
shift the upper-case range (65-90) down by 32. -/
def asciiLower (c : Char) : Char :=
  if 65 ≤ c.toNat && c.toNat ≤ 90 then Char.ofNat (c.toNat + 32) else c

/-- Model of Rust `str::eq_ignore_ascii_case`. -/
def eqIgnoreAsciiCase (a b : Str) : Bool := a.map asciiLower == b.map asciiLower

/-! ## Process environments and `std::process::Command` environment edits -/

/-- An ambient process environment: a partial map from variable names to values. -/
abbrev Env := Str → Option Str

/-- Build an environment from an association list (first binding wins). -/
def envOfList (l : List (Str × Str)) : Env :=
  fun k => (l.find? (fun p => p.1 == k)).map (fun p => p.2)

/-- One edit recorded on a `std::process::Command`: `cmd.env k v` or
`cmd.env_remove k`.  For the same key, a later edit overrides an earlier one. -/
inductive EnvOp where
  | set (key value : Str)
  | remove (key : Str)

/-- Apply a single environment edit. -/
def applyOp (e : Env) : EnvOp → Env
  | .set k v => fun q => if q = k then some v else e q
  | .remove k => fun q => if q = k then none else e q

/-- The environment a spawned child process sees: the ambient environment
with the command's recorded edits applied in order. -/
def childEnv (ambient : Env) (ops : List EnvOp) : Env :=
  ops.foldl applyOp ambient

/-! ## installer.rs: `sanitize_cargo_env` and the backend invocations -/

/-- The fixed removal list of `sanitize_cargo_env` (installer.rs lines 139-147). -/
def vars_to_remove : List Str :=
  [str "CARGO_INSTALL_ROOT", str "CARGO_HOME", str "CARGO_BUILD_TARGET_DIR",
   str "CARGO_TARGET_DIR", str "BINSTALL_INSTALL_PATH", str "RUSTUP_HOME",
   str "RUSTUP_TOOLCHAIN"]

/-- `sanitize_cargo_env` (installer.rs lines 137-155) as the sequence of
environment edits it records on the command: remove every variable on the
removal list, then set `CARGO_INSTALL_ROOT` to the private install root. -/
def sanitize_cargo_env (install_dir : Str) : List EnvOp :=
  vars_to_remove.map EnvOp.remove ++ [EnvOp.set (str "CARGO_INSTALL_ROOT") install_dir]

/-- The environment edits recorded by `install_with_cargo`
(installer.rs lines 106-107): first `cmd.env("CARGO_TARGET_DIR", temp_dir)`,
then the `sanitize_cargo_env` edits. -/
def install_with_cargo_env (temp_dir install_dir : Str) : List EnvOp :=
  EnvOp.set (str "CARGO_TARGET_DIR") temp_dir :: sanitize_cargo_env install_dir

/-- The environment edits recorded by `install_with_binstall`
(installer.rs line 56): exactly the `sanitize_cargo_env` edits. -/
def install_with_binstall_env (install_dir : Str) : List EnvOp :=
  sanitize_cargo_env install_dir

/-! ## The semver crate: versions and their ordering

The repository depends on the external `semver` crate for `Version`,
`VersionReq` and their parsing/ordering.  The definitions below model that
crate: versions are `major.minor.patch` with pre-release and build-metadata
identifier lists; ordering is SemVer precedence (major, minor, patch, then
pre-release identifiers, where a version without pre-release outranks one
with), with build metadata as a final total tie-break exactly so that the
order is total, as in the crate's `Ord` implementation. -/

/-- One pre-release identifier: purely numeric, or alphanumeric. -/
inductive PreId where
  | num (n : Nat)
  | alpha (s : Str)
deriving DecidableEq, Repr

/-- Model of `semver::Version`. -/
structure Version where
  major : Nat
  minor : Nat
  patch : Nat
  pre : List PreId
  build : List Str
deriving DecidableEq, Repr

/-- Character comparison by code point. -/
def cmpChar (a b : Char) : Ordering := compare a.toNat b.toNat

/-- Element-wise lexicographic comparison of lists (a proper prefix is
smaller). -/
def cmpList (f : α → α → Ordering) : List α → List α → Ordering
  | [], [] => .eq
  | [], _ :: _ => .lt
  | _ :: _, [] => .gt
  | a :: as, b :: bs => (f a b).then (cmpList f as bs)

/-- Lexicographic comparison of character lists (ASCII order; a proper
prefix is smaller). -/
def cmpStr : Str → Str → Ordering := cmpList cmpChar

/-- Comparison of single pre-release identifiers: numeric identifiers
compare numerically and are always lower than alphanumeric ones;
alphanumeric identifiers compare in ASCII order. -/
def cmpPreId : PreId → PreId → Ordering
  | .num a, .num b => compare a b
  | .num _, .alpha _ => .lt
  | .alpha _, .num _ => .gt
  | .alpha a, .alpha b => cmpStr a b

/-- Element-wise lexicographic comparison of identifier lists (a proper
prefix is smaller). -/
def cmpPreList : List PreId → List PreId → Ordering := cmpList cmpPreId

/-- Pre-release comparison per SemVer precedence: the empty pre-release
(an ordinary release) has *higher* precedence than any pre-release. -/
def cmpPre (a b : List PreId) : Ordering :=
  match a, b with
  | [], [] => .eq
  | [], _ :: _ => .gt
  | _ :: _, [] => .lt
  | _ :: _, _ :: _ => cmpPreList a b

/-- Is the identifier purely numeric? -/
def isDigitStr (s : Str) : Bool := !s.isEmpty && s.all isDigitChar

/-- Numeric value of a digit string. -/
def digitsVal (s : Str) : Nat := s.foldl (fun acc c => acc * 10 + (c.toNat - 48)) 0

/-- Comparison of single build-metadata identifiers (model of the total
order the semver crate uses for `BuildMetadata`): digit-only identifiers
compare numerically (character order breaking ties) and sort below
alphanumeric ones; alphanumeric identifiers compare in ASCII order. -/
def cmpBuildId (a b : Str) : Ordering :=
  match isDigitStr a, isDigitStr b with
  | true, true => (compare (digitsVal a) (digitsVal b)).then (cmpStr a b)
  | true, false => .lt
  | false, true => .gt
  | false, false => cmpStr a b

/-- Lexicographic comparison of build-metadata identifier lists. -/
def cmpBuild : List Str → List Str → Ordering := cmpList cmpBuildId

/-- A comparator that behaves like one induced by a total preorder:
reflexively `eq`, antisymmetric under `swap`, transitive on `lt`, and with
`eq` results substitutive on the left argument. -/
structure IsCmpOn (f : α → α → Ordering) : Prop where
  rfl_eq : ∀ a, f a a = .eq
  swap_eq : ∀ a b, (f a b).swap = f b a
  lt_trans : ∀ a b c, f a b = .lt → f b c = .lt → f a c = .lt
  eq_congr : ∀ a b c, f a b = .eq → f a c = f b c

/-- SemVer *precedence* (build metadata ignored): major, then minor, then
patch, then pre-release. -/
def precCompare (a b : Version) : Ordering :=
  (compare a.major b.major).then ((compare a.minor b.minor).then
    ((compare a.patch b.patch).then (cmpPre a.pre b.pre)))

/-- The total order of `impl Ord for semver::Version`: precedence first,
build metadata as a final tie-break. -/
def versionCompare (a b : Version) : Ordering :=
  (precCompare a b).then (cmpBuild a.build b.build)

/-- `a <= b` as a Boolean, the comparison Rust's `Vec::sort` sorts by. -/
def vle (a b : Version) : Bool :=
  match versionCompare a b with
  | .gt => false
  | _ => true

/-- `b` is at least `a` in SemVer *precedence* (what the claims about
"highest version" are stated in). -/
def precGe (b a : Version) : Bool :=
  match precCompare a b with
  | .gt => false
  | _ => true

/-- Model of `versions.sort()` (registry.rs line 60): ascending stable
sort by the `Ord` of `semver::Version`.  Rust's sort is a stable merge
sort; `versionCompare` only ties on equal elements, so every sorted
permutation of the input is the same list and the structurally recursive
insertion sort below computes exactly it. -/
def sortVersions (l : List Version) : List Version :=
  l.insertionSort (fun a b => vle a b = true)

/-! ## The semver crate: parsing -/

/-- Characters allowed in SemVer identifiers: `[0-9A-Za-z-]`. -/
def isIdentChar (c : Char) : Bool := isDigitChar c || isAlphaChar c || c = '-'

/-- Parse one pre-release identifier: non-empty, identifier characters
only; digit-only identifiers must not have a leading zero and become
numeric identifiers. -/
def parsePreIdToken (s : Str) : Option PreId :=
  if s.isEmpty then none
  else if !s.all isIdentChar then none
  else if s.all isDigitChar then
    if s.head? = some '0' && s.length > 1 then none
    else some (.num (digitsVal s))
  else some (.alpha s)

/-- Parse one build-metadata identifier: non-empty, identifier characters
only (leading zeros are allowed here). -/
def parseBuildIdToken (s : Str) : Option Str :=
  if s.isEmpty || !s.all isIdentChar then none else some s

/-- Parse a numeric version component: non-empty digits, no leading zero. -/
def parseNumId (s : Str) : Option Nat :=
  if s.isEmpty then none
  else if !s.all isDigitChar then none
  else if s.head? = some '0' && s.length > 1 then none
  else some (digitsVal s)

/-- Model of `semver::Version::parse`: `MAJOR.MINOR.PATCH[-PRE][+BUILD]`.
Build metadata is everything after the first `+`; the pre-release part is
everything after the first `-` of what remains (the numeric core contains
no `-`, so that first `-` is the pre-release separator). -/
def versionParse (s : Str) : Option Version :=
  let coreBuild := match splitFirst '+' s with
    | some p => (p.1, some p.2)
    | none => (s, none)
  let verPre := match splitFirst '-' coreBuild.1 with
    | some p => (p.1, some p.2)
    | none => (coreBuild.1, none)
  match splitOnChar '.' verPre.1 with
  | [ma, mi, pa] =>
    match parseNumId ma, parseNumId mi, parseNumId pa with
    | some major, some minor, some patch =>
      let pre? : Option (List PreId) := match verPre.2 with
        | none => some []
        | some p => (splitOnChar '.' p).mapM parsePreIdToken
      let build? : Option (List Str) := match coreBuild.2 with
        | none => some []
        | some b => (splitOnChar '.' b).mapM parseBuildIdToken
      match pre?, build? with
      | some pre, some build => some ⟨major, minor, patch, pre, build⟩
      | _, _ => none
    | _, _, _ => none
  | _ => none

/-! ## The semver crate: version requirements -/

/-- Comparator operators of `semver::Op`. -/
inductive RangeOp where
  | exact | greater | greaterEq | less | lessEq | tilde | caret | wildcard
deriving DecidableEq, Repr

/-- Model of `semver::Comparator`. -/
structure Comparator where
  op : RangeOp
  major : Nat
  minor : Option Nat
  patch : Option Nat
  pre : List PreId
deriving DecidableEq, Repr

/-- Model of `semver::VersionReq`: a conjunction of comparators. -/
abbrev VersionReq := List Comparator

/-- Strip an explicit comparison operator from the front of a comparator
token; `none` means no explicit operator was written (the semver default,
caret semantics). -/
def stripOp : Str → Option RangeOp × Str
  | [] => (none, [])
  | a :: r =>
    if a = '>' then
      match r with
      | b :: r2 => if b = '=' then (some .greaterEq, r2) else (some .greater, b :: r2)
      | [] => (some .greater, [])
    else if a = '<' then
      match r with
      | b :: r2 => if b = '=' then (some .lessEq, r2) else (some .less, b :: r2)
      | [] => (some .less, [])
    else if a = '=' then (some .exact, r)
    else if a = '~' then (some .tilde, r)
    else if a = '^' then (some .caret, r)
    else (none, a :: r)

/-- A wildcard component token: `*`, `x` or `X`. -/
def isWildTok (s : Str) : Bool := s = ['*'] || s = ['x'] || s = ['X']

/-- Parse one comparator (model of the semver crate's comparator grammar on
the forms this program exercises): optional operator, then
`MAJOR[.MINOR[.PATCH[-PRE]]]` where the minor or patch position may be a
wildcard when no explicit operator was written. -/
def parseComparator (tok : Str) : Option Comparator :=
  let t := trimStr tok
  let opRest := stripOp t
  let rest := trimStr opRest.2
  let verPre := match splitFirst '-' rest with
    | some p => (p.1, some p.2)
    | none => (rest, none)
  let preOk : Option (List PreId) := match verPre.2 with
    | none => some []
    | some p => (splitOnChar '.' p).mapM parsePreIdToken
  match splitOnChar '.' verPre.1 with
  | [ma] =>
    match parseNumId ma, verPre.2 with
    | some major, none => some ⟨opRest.1.getD .caret, major, none, none, []⟩
    | _, _ => none
  | [ma, mi] =>
    match parseNumId ma with
    | none => none
    | some major =>
      if isWildTok mi then
        if opRest.1.isSome || verPre.2.isSome then none
        else some ⟨.wildcard, major, none, none, []⟩
      else
        match parseNumId mi, verPre.2 with
        | some minor, none => some ⟨opRest.1.getD .caret, major, some minor, none, []⟩
        | _, _ => none
  | [ma, mi, pa] =>
    match parseNumId ma, parseNumId mi with
    | some major, some minor =>
      if isWildTok pa then
        if opRest.1.isSome || verPre.2.isSome then none
        else some ⟨.wildcard, major, some minor, none, []⟩
      else
        match parseNumId pa, preOk with
        | some patch, some pre => some ⟨opRest.1.getD .caret, major, some minor, some patch, pre⟩
        | _, _ => none
    | _, _ => none
  | _ => none

/-- Model of `semver::VersionReq::parse`: a bare wildcard is the match-all
requirement (no comparators); otherwise a comma-separated non-empty list of
comparators. -/
def reqParse (s : Str) : Option VersionReq :=
  let t := trimStr s
  if t.isEmpty then none
  else if isWildTok t then some []
  else (splitOnChar ',' s).mapM parseComparator

/-- `a >= b` on pre-release lists under `cmpPre`. -/
def preGe (a b : List PreId) : Bool :=
  match cmpPre a b with
  | .lt => false
  | _ => true

/-- `a < b` on pre-release lists under `cmpPre`. -/
def preLt (a b : List PreId) : Bool :=
  match cmpPre a b with
  | .lt => true
  | _ => false

/-- `matches_exact` of the semver crate (used for `=` and wildcards):
every specified numeric component must be equal, and the pre-release lists
must be equal. -/
def matchesExact (c : Comparator) (v : Version) : Bool :=
  v.major == c.major &&
  (match c.minor with | none => true | some m => v.minor == m) &&
  (match c.patch with | none => true | some p => v.patch == p) &&
  v.pre == c.pre

/-- `matches_greater` of the semver crate. -/
def matchesGreater (c : Comparator) (v : Version) : Bool :=
  if v.major ≠ c.major then v.major > c.major
  else match c.minor with
    | none => false
    | some minor =>
      if v.minor ≠ minor then v.minor > minor
      else match c.patch with
        | none => false
        | some patch =>
          if v.patch ≠ patch then v.patch > patch
          else preLt c.pre v.pre

/-- `matches_less` of the semver crate. -/
def matchesLess (c : Comparator) (v : Version) : Bool :=
  if v.major ≠ c.major then v.major < c.major
  else match c.minor with
    | none => false
    | some minor =>
      if v.minor ≠ minor then v.minor < minor
      else match c.patch with
        | none => false
        | some patch =>
          if v.patch ≠ patch then v.patch < patch
          else preLt v.pre c.pre

/-- `matches_tilde` of the semver crate. -/
def matchesTilde (c : Comparator) (v : Version) : Bool :=
  if v.major ≠ c.major then false
  else match c.minor with
    | none => true
    | some minor =>
      if v.minor ≠ minor then false
      else match c.patch with
        | none => true
        | some patch =>
          if v.patch ≠ patch then v.patch > patch
          else preGe v.pre c.pre

/-- `matches_caret` of the semver crate. -/
def matchesCaret (c : Comparator) (v : Version) : Bool :=
  if v.major ≠ c.major then false
  else match c.minor with
    | none => true
    | some minor =>
      match c.patch with
      | none =>
        if c.major > 0 then v.minor ≥ minor else v.minor == minor
      | some patch =>
        if c.major > 0 then
          if v.minor ≠ minor then v.minor > minor
          else if v.patch ≠ patch then v.patch > patch
          else preGe v.pre c.pre
        else if minor > 0 then
          if v.minor ≠ minor then false
          else if v.patch ≠ patch then v.patch > patch
          else preGe v.pre c.pre
        else
          if v.minor ≠ minor then false
          else if v.patch ≠ patch then false
          else preGe v.pre c.pre

/-- Dispatch on the comparator operator (`matches_impl` of the semver crate). -/
def matchesComparator (c : Comparator) (v : Version) : Bool :=
  match c.op with
  | .exact => matchesExact c v
  | .wildcard => matchesExact c v
  | .greater => matchesGreater c v
  | .greaterEq => matchesExact c v || matchesGreater c v
  | .less => matchesLess c v
  | .lessEq => matchesExact c v || matchesLess c v
  | .tilde => matchesTilde c v
  | .caret => matchesCaret c v

/-- `pre_is_compatible` of the semver crate. -/
def preIsCompatible (c : Comparator) (v : Version) : Bool :=
  c.major == v.major && c.minor == some v.minor && c.patch == some v.patch &&
  !c.pre.isEmpty

/-- `VersionReq::matches` of the semver crate: all comparators must match,
and a pre-release version additionally needs some comparator with a
pre-release component on the same `major.minor.patch`. -/
def matchesReq (r : VersionReq) (v : Version) : Bool :=
  r.all (fun c => matchesComparator c v) &&
  (v.pre.isEmpty || r.any (fun c => preIsCompatible c v))

/-! ## target.rs: the spec parser -/

/-- The distinct `anyhow!` error sites of `parse_spec` (target.rs). -/
inductive SpecErr where
  | emptySpec | emptyName | multipleAt | emptyVersion | badRequirement
deriving DecidableEq, Repr

/-- `VersionSpec` of target.rs. -/
inductive VersionSpec where
  | Unspecified
  | Latest
  | Requirement (req : VersionReq)
deriving DecidableEq, Repr

/-- `Target` of target.rs. -/
structure Target where
  crate_name : Str
  version : VersionSpec
  binary : Str

/-- `parse_spec` (target.rs lines 18-62): reject an all-whitespace spec;
split on `@`; the first part (trimmed) is the crate name and must be
non-empty; no `@` means an unspecified version; more than one `@` is an
error; otherwise the trimmed version token must be non-empty, `latest`
case-insensitively means `Latest`, and anything else must parse as a
`VersionReq`. -/
def parse_spec (spec : Str) : Except SpecErr (Str × VersionSpec) :=
  if (trimStr spec).isEmpty then .error .emptySpec
  else
    let parts := splitOnChar '@' spec
    let first := trimStr (parts.headD [])
    if first.isEmpty then .error .emptyName
    else
      match parts.tail with
      | [] => .ok (first, .Unspecified)
      | [vtok] =>
        let version := trimStr vtok
        if version.isEmpty then .error .emptyVersion
        else if eqIgnoreAsciiCase version (str "latest") then .ok (first, .Latest)
        else
          match reqParse version with
          | some req => .ok (first, .Requirement req)
          | none => .error .badRequirement
      | _ :: _ :: _ => .error .multipleAt

/-- The error condition the specification enumerates for `parse_spec`:
empty or whitespace-only input, an empty name before `@`, more than one
`@`, an empty version token after `@`, or a version token that is neither
`latest` (case-insensitively) nor a parsable version requirement. -/
def claimedInvalidSpec (s : Str) : Bool :=
  let parts := splitOnChar '@' s
  (trimStr s).isEmpty ||
  (trimStr (parts.headD [])).isEmpty ||
  decide (parts.length > 2) ||
  (parts.length == 2 &&
    (let t := trimStr (parts.getD 1 [])
     t.isEmpty || (!eqIgnoreAsciiCase t (str "latest") && (reqParse t).isNone)))

/-- A plain full version triple `X.Y.Z`: exactly three dot-separated
numeric components. -/
def parseFullTriple (s : Str) : Option (Nat × Nat × Nat) :=
  match splitOnChar '.' s with
  | [a, b, c] =>
    match parseNumId a, parseNumId b, parseNumId c with
    | some x, some y, some z => some (x, y, z)
    | _, _, _ => none
  | _ => none

/-- Lexicographic `≥` on version triples. -/
def tripleGe (a1 a2 a3 b1 b2 b3 : Nat) : Bool :=
  decide (b1 < a1) || (a1 == b1 && (decide (b2 < a2) || (a2 == b2 && decide (b3 ≤ a3))))

/-- Lexicographic `<` on version triples. -/
def tripleLt (a1 a2 a3 b1 b2 b3 : Nat) : Bool :=
  decide (a1 < b1) || (a1 == b1 && (decide (a2 < b2) || (a2 == b2 && decide (a3 < b3))))

/-- The smallest breaking version above `X.Y.Z` under caret semantics. -/
def nextBreaking (X Y Z : Nat) : Nat × Nat × Nat :=
  if 0 < X then (X + 1, 0, 0) else if 0 < Y then (0, Y + 1, 0) else (0, 0, Z + 1)

/-- The semantic-compatibility range the specification ascribes to a bare
`X.Y.Z` requirement: exactly the ordinary releases (no pre-release) that
are at least `X.Y.Z` and below the next breaking version. -/
def caretSpec (X Y Z : Nat) (v : Version) : Bool :=
  v.pre.isEmpty && tripleGe v.major v.minor v.patch X Y Z &&
  tripleLt v.major v.minor v.patch (nextBreaking X Y Z).1 (nextBreaking X Y Z).2.1
    (nextBreaking X Y Z).2.2

/-- Re-join the pieces `splitOnChar` produces, re-inserting the separator. -/
def joinSep (c : Char) : List Str → Str
  | [] => []
  | [p] => p
  | p :: ps => p ++ c :: joinSep c ps

/-! ## registry.rs: version selection

The HTTP fetch itself (lines 23-47 of registry.rs) is an external
interface; what the claims are about is the selection logic applied to the
fetched version list (lines 49-75), embedded here as a function of that
list. -/

/-- One entry of the crates.io versions payload. -/
structure CrateVersion where
  num : Str
  yanked : Bool
deriving DecidableEq, Repr

/-- The two registry-stage failures of `fetch_highest_matching_version`
distinguishable after a successful fetch. -/
inductive RegistryErr where
  | NoVersionsFound
  | NoMatchingVersion
deriving DecidableEq, Repr

/-- The surviving versions: non-yanked entries whose `num` parses. -/
def survivingVersions (entries : List CrateVersion) : List Version :=
  (entries.filter (fun v => !v.yanked)).filterMap (fun e => versionParse e.num)

/-- `fetch_highest_matching_version` (registry.rs lines 49-75), applied to
an already-fetched version list: drop yanked and unparsable entries; fail
with `NoVersionsFound` on an empty remainder; sort ascending; with a
requirement, scan from highest to lowest for the first match (failing with
`NoMatchingVersion` if none); without one, take the maximum. -/
def fetch_highest_matching_version (entries : List CrateVersion)
    (requirement : Option VersionReq) : Except RegistryErr Version :=
  let versions := survivingVersions entries
  if versions.isEmpty then .error .NoVersionsFound
  else
    let sorted := sortVersions versions
    match requirement with
    | some req =>
      match sorted.reverse.find? (fun v => matchesReq req v) with
      | some v => .ok v
      | none => .error .NoMatchingVersion
    | none =>
      match sorted.getLast? with
      | some v => .ok v
      | none => .error .NoVersionsFound

/-! ## paths.rs: install root discovery and binary lookup -/

/-- Only the non-Windows/Windows distinction matters to the embedded code
(`#[cfg(windows)]` suffix probing). -/
structure Platform where
  windows : Bool

/-- Model of `directories::ProjectDirs::from("", "", "cargox").data_dir()`
on XDG platforms: requires a resolvable home (`$HOME`); the data directory
is `$XDG_DATA_HOME/cargox` when that variable is set to an absolute path,
else `$HOME/.local/share/cargox`.  (The crate's passwd-database fallback
for the home directory is outside the environment model; directory
creation is modelled as always succeeding.) -/
def project_data_dir (env : Env) : Option Str :=
  match env (str "HOME") with
  | none => none
  | some home =>
    match env (str "XDG_DATA_HOME") with
    | some x =>
      if x.head? = some '/' then some (x ++ str "/cargox")
      else some (home ++ str "/.local/share/cargox")
    | none => some (home ++ str "/.local/share/cargox")

/-- `home_dir` (paths.rs lines 70-74): `$HOME`, else `$USERPROFILE`. -/
def home_dir (env : Env) : Option Str :=
  match env (str "HOME") with
  | some h => some h
  | none => env (str "USERPROFILE")

/-- The error of `get_install_dir` when no directory can be determined. -/
inductive PathsErr where
  | NoInstallDirectory
deriving DecidableEq, Repr

/-- `get_install_dir` (paths.rs lines 7-34): the explicit
`CARGOX_INSTALL_DIR` override first; else the per-application data
directory; else `~/.local/share/cargox`; else `NoInstallDirectory`. -/
def get_install_dir (env : Env) : Except PathsErr Str :=
  match env (str "CARGOX_INSTALL_DIR") with
  | some p => .ok p
  | none =>
    match project_data_dir env with
    | some d => .ok d
    | none =>
      match home_dir env with
      | some home => .ok (home ++ str "/.local/share/cargox")
      | none => .error .NoInstallDirectory

/-- `candidate_bin_dirs` (paths.rs lines 58-68): the install root's `bin`
subdirectory, then the install root itself; nothing on failure. -/
def candidate_bin_dirs (env : Env) : List Str :=
  match get_install_dir env with
  | .ok install_dir => [install_dir ++ str "/bin", install_dir]
  | .error _ => []

/-- The directory-probing loop of `resolve_binary_path` (paths.rs lines
41-53): in each candidate directory, the plain name first, then — on
Windows only — the `.exe` variant. -/
def probe_dirs (ex : Str → Bool) (pf : Platform) (name : Str) : List Str → Option Str
  | [] => none
  | dir :: rest =>
    let candidate := dir ++ str "/" ++ name
    if ex candidate then some candidate
    else if pf.windows && ex (candidate ++ str ".exe") then some (candidate ++ str ".exe")
    else probe_dirs ex pf name rest

/-- `resolve_binary_path` (paths.rs lines 36-56): the system PATH
(`which::which`, modelled by the oracle `which`) first, then the candidate
directories; `none` models the `Err("cannot find binary path")` miss.  The
filesystem is the existence oracle `ex`. -/
def resolve_binary_path (env : Env) (which : Str → Option Str) (ex : Str → Bool)
    (pf : Platform) (name : Str) : Option Str :=
  match which name with
  | some p => some p
  | none => probe_dirs ex pf name (candidate_bin_dirs env)

/-! ## installer.rs: finalisation into the versioned layout -/

/-- The filesystem, as a partial map from paths to file contents. -/
abbrev FS := Str → Option Str

/-- Render a `Nat` in decimal. -/
def natToStr (n : Nat) : Str := Nat.toDigits 10 n

/-- Render one pre-release identifier. -/
def preIdToStr : PreId → Str
  | .num n => natToStr n
  | .alpha s => s

/-- Intercalate `.` between rendered identifiers. -/
def dotJoin (l : List Str) : Str :=
  match l with
  | [] => []
  | x :: xs => x ++ (xs.foldr (fun s acc => '.' :: s ++ acc) [])

/-- Render a version (`Display` of `semver::Version`). -/
def versionToStr (v : Version) : Str :=
  natToStr v.major ++ str "." ++ natToStr v.minor ++ str "." ++ natToStr v.patch ++
  (if v.pre.isEmpty then [] else '-' :: dotJoin (v.pre.map preIdToStr)) ++
  (if v.build.isEmpty then [] else '+' :: dotJoin v.build)

/-- Modelled from the spec: `versioned_binary_path` lives in
`crate::versions`, whose source is not under `src/`; per §3 and §6 the
deterministic versioned storage path is the install root's top-level entry
`<binary>-<version>`, a pure function of the binary name and version. -/
def versioned_binary_path (install_dir binary : Str) (version : Version) : Str :=
  install_dir ++ str "/" ++ binary ++ str "-" ++ versionToStr version

/-- The contract-violation error of `finalize_installation`. -/
inductive InstallErr where
  | InstallationIncomplete
deriving DecidableEq, Repr

/-- `finalize_installation` (installer.rs lines 157-205): find the binary
the backend deposited in `<install_dir>/bin` (on Windows also probing the
`.exe` variant), failing with `InstallationIncomplete` if absent; remove
any pre-existing file at the versioned path (not an error); rename the
deposited file onto the versioned path. -/
def finalize_installation (pf : Platform) (fs : FS) (install_dir binary : Str)
    (version : Version) : Except InstallErr FS :=
  let bin_dir := install_dir ++ str "/bin"
  let candidate := bin_dir ++ str "/" ++ binary
  let installed? : Option Str :=
    if (fs candidate).isSome then some candidate
    else if pf.windows && (fs (candidate ++ str ".exe")).isSome then
      some (candidate ++ str ".exe")
    else none
  match installed? with
  | none => .error .InstallationIncomplete
  | some installed_path =>
    let target_path := versioned_binary_path install_dir binary version
    .ok (fun p =>
      if p = target_path then fs installed_path
      else if p = installed_path then none
      else fs p)

/-- The backend depositing a freshly installed binary into the install
root's `bin` subdirectory (the filesystem effect the external tool is
contracted to have on success). -/
def depositBinary (fs : FS) (install_dir binary content : Str) : FS :=
  fun p => if p = install_dir ++ str "/bin" ++ str "/" ++ binary then some content else fs p

/-! ## main.rs and installer.rs: the invocation pipeline -/

/-- Modelled from the spec: the CLI options record (`src/cli.rs` is not
among the sources); the fields are exactly those the present sources read —
the spec string, the optional binary-name selector, the forced-reinstall,
quiet and build-from-source options, and the forwarded arguments (§4.4,
§6). -/
structure Cli where
  crate_spec : Str
  bin : Option Str
  force : Bool
  quiet : Bool
  build_from_source : Bool
  args : List Str

/-- Modelled from the spec: `VersionSpec::is_some` is called by
`should_use_existing_binary` (main.rs line 56) but defined in repository
code missing from `src/`; per §3 a version is "given" exactly when the
request is not `Unspecified` (`resolved_version` is `None` only for
`Unspecified`). -/
def VersionSpec.is_some : VersionSpec → Bool
  | .Unspecified => false
  | .Latest => true
  | .Requirement _ => true

/-- `should_use_existing_binary` (main.rs lines 51-61): never under
`--force`; never when a version was given; otherwise exactly when an
existing binary is found.  `find_existing` is `find_existing_binary`
(main.rs line 75), i.e. `resolve_binary_path` with the miss mapped to
`none`. -/
def should_use_existing_binary (cli : Cli) (target : Target)
    (find_existing : Str → Option Str) : Bool :=
  if cli.force then false
  else if target.version.is_some then false
  else (find_existing target.binary).isSome

/-- The two installer backends. -/
inductive Backend where
  | binstall
  | cargoInstall
deriving DecidableEq, Repr

/-- The backend decision of `ensure_installed` (installer.rs lines 12-19):
the fast pre-built backend when `--build-from-source` is not set and
`cargo-binstall` is discoverable on PATH; the from-source backend
otherwise. -/
def ensure_installed_backend (cli : Cli) (binstall_on_path : Bool) : Backend :=
  if !cli.build_from_source && binstall_on_path then .binstall else .cargoInstall

/-- External-tool invocations either backend performs: each of
`install_with_binstall` and `install_with_cargo` runs `cmd.status()`
exactly once. -/
def backend_invocations : Backend → Nat
  | .binstall => 1
  | .cargoInstall => 1

/-- What one `run_application` invocation does after parsing (main.rs lines
29-33): run an existing binary directly, or install through a backend and
then run.  `expectFailed` models the `.expect(...)` panic in
`run_existing_binary` (main.rs line 65), unreachable when the existing
binary was just found. -/
inductive Plan where
  | runExisting (path : Str)
  | installThenRun (backend : Backend)
  | expectFailed
deriving DecidableEq, Repr

/-- `find_existing_binary` (main.rs lines 75-77). -/
def find_existing_binary (env : Env) (which : Str → Option Str) (ex : Str → Bool)
    (pf : Platform) (name : Str) : Option Str :=
  resolve_binary_path env which ex pf name

/-- The control-flow decision of `run_application` (main.rs lines 29-33). -/
def run_application_plan (cli : Cli) (target : Target) (env : Env)
    (which : Str → Option Str) (ex : Str → Bool) (pf : Platform)
    (binstall_on_path : Bool) : Plan :=
  if should_use_existing_binary cli target (find_existing_binary env which ex pf) then
    match find_existing_binary env which ex pf target.binary with
    | some p => .runExisting p
    | none => .expectFailed
  else
    .installThenRun (ensure_installed_backend cli binstall_on_path)

/-- External installer-tool invocations a plan performs. -/
def plan_external_invocations : Plan → Nat
  | .runExisting _ => 0
  | .installThenRun b => backend_invocations b
  | .expectFailed => 0

/-- Registry queries a plan performs.  The reuse path runs the binary
directly (main.rs lines 63-67) and never touches registry.rs.  Modelled
from the spec for the install path: per §2, resolution against the
registry happens before installing. -/
def plan_registry_queries : Plan → Nat
  | .runExisting _ => 0
  | .installThenRun _ => 1
  | .expectFailed => 0

/-- The requirement `parse_spec` produces for the version token `1.2.3`:
the default (caret) comparator on `1.2.3`. -/
def caretReq123 : VersionReq := [⟨.caret, 1, some 2, some 3, []⟩]

/-- The target of the invocation `tool@1.2.3`. -/
def targetPinned : Target := ⟨str "tool", .Requirement caretReq123, str "tool"⟩

/-- The target of the unversioned invocation `tool`. -/
def targetUnversioned : Target := ⟨str "tool", .Unspecified, str "tool"⟩

/-- A CLI record with no options set. -/
def cliPlain : Cli :=
  { crate_spec := str "tool@1.2.3", bin := none, force := false, quiet := false,
    build_from_source := false, args := [] }

/-- An existence oracle on which every path exists — in particular, the
versioned path of every already-installed version. -/
def cachedEx : Str → Bool := fun _ => true

/-- The registry example of the spec: versions 1.0.0, 1.2.0 (yanked),
1.5.0, 2.0.0. -/
def exampleEntries : List CrateVersion :=
  [⟨str "1.0.0", false⟩, ⟨str "1.2.0", true⟩, ⟨str "1.5.0", false⟩, ⟨str "2.0.0", false⟩]

/-- The requirement `^1.0.0`. -/
def caretReq100 : VersionReq := [⟨.caret, 1, some 0, some 0, []⟩]

/-- Version 1.5.0. -/
def v150 : Version := ⟨1, 5, 0, [], []⟩

/-- Version 2.0.0. -/
def v200 : Version := ⟨2, 0, 0, [], []⟩

/-- A concrete ambient environment for witnesses: every removal-list
variable is bound, plus one unrelated variable. -/
def ambientFull : Env :=
  envOfList
    [(str "CARGO_INSTALL_ROOT", str "/some/path"),
     (str "CARGO_HOME", str "/some/cargo"),
     (str "CARGO_BUILD_TARGET_DIR", str "/some/build"),
     (str "CARGO_TARGET_DIR", str "/some/target"),
     (str "BINSTALL_INSTALL_PATH", str "/some/binstall"),
     (str "RUSTUP_HOME", str "/some/rustup"),
     (str "RUSTUP_TOOLCHAIN", str "nightly"),
     (str "SOME_OTHER_VAR", str "should_remain")]

end Cargox

namespace Cargox

/-! # Theorems -/

/-! ## Comparator laws -/

theorem then_eq_eq {o p : Ordering} : o.then p = .eq ↔ o = .eq ∧ p = .eq := by
  cases o <;> simp [Ordering.then]

theorem then_eq_lt {o p : Ordering} : o.then p = .lt ↔ o = .lt ∨ (o = .eq ∧ p = .lt) := by
  cases o <;> simp [Ordering.then]

theorem then_eq_gt {o p : Ordering} : o.then p = .gt ↔ o = .gt ∨ (o = .eq ∧ p = .gt) := by
  cases o <;> simp [Ordering.then]

theorem then_swap (o p : Ordering) : (o.then p).swap = o.swap.then p.swap := by
  cases o <;> cases p <;> rfl

theorem IsCmpOn.eq_congr_right {f : α → α → Ordering} (hf : IsCmpOn f) (a b c : α)
    (h : f a b = .eq) : f c a = f c b := by
  have h1 : f a c = f b c := hf.eq_congr a b c h
  rw [← hf.swap_eq a c, ← hf.swap_eq b c, h1]

theorem isCmpOn_comap {f : β → β → Ordering} (hf : IsCmpOn f) (k : α → β) :
    IsCmpOn (fun a b => f (k a) (k b)) where
  rfl_eq a := hf.rfl_eq (k a)
  swap_eq a b := hf.swap_eq (k a) (k b)
  lt_trans a b c := hf.lt_trans (k a) (k b) (k c)
  eq_congr a b c := hf.eq_congr (k a) (k b) (k c)

theorem isCmpOn_then {f g : α → α → Ordering} (hf : IsCmpOn f) (hg : IsCmpOn g) :
    IsCmpOn (fun a b => (f a b).then (g a b)) where
  rfl_eq a := by rw [hf.rfl_eq, hg.rfl_eq]; rfl
  swap_eq a b := by rw [then_swap, hf.swap_eq, hg.swap_eq]
  lt_trans a b c hab hbc := by
    rcases then_eq_lt.1 hab with h1 | ⟨h1, h2⟩ <;>
      rcases then_eq_lt.1 hbc with h3 | ⟨h3, h4⟩
    · exact then_eq_lt.2 (.inl (hf.lt_trans a b c h1 h3))
    · exact then_eq_lt.2 (.inl ((hf.eq_congr_right b c a h3) ▸ h1))
    · exact then_eq_lt.2 (.inl ((hf.eq_congr a b c h1) ▸ h3))
    · exact then_eq_lt.2 (.inr ⟨(hf.eq_congr a b c h1).trans h3,
        hg.lt_trans a b c h2 h4⟩)
  eq_congr a b c h := by
    rcases then_eq_eq.1 h with ⟨h1, h2⟩
    rw [hf.eq_congr a b c h1, hg.eq_congr a b c h2]

theorem natCmp_isCmpOn : IsCmpOn (compare : Nat → Nat → Ordering) where
  rfl_eq a := Nat.compare_eq_eq.2 rfl
  swap_eq a b := by
    rcases Nat.lt_trichotomy a b with h | h | h
    · rw [Nat.compare_eq_lt.2 h, Nat.compare_eq_gt.2 h]; rfl
    · rw [Nat.compare_eq_eq.2 h, Nat.compare_eq_eq.2 h.symm]; rfl
    · rw [Nat.compare_eq_gt.2 h, Nat.compare_eq_lt.2 h]; rfl
  lt_trans a b c hab hbc :=
    Nat.compare_eq_lt.2 (Nat.lt_trans (Nat.compare_eq_lt.1 hab) (Nat.compare_eq_lt.1 hbc))
  eq_congr a b c h := by rw [Nat.compare_eq_eq.1 h]

theorem cmpChar_isCmpOn : IsCmpOn cmpChar :=
  isCmpOn_comap natCmp_isCmpOn Char.toNat

theorem cmpList_eq_congr {f : α → α → Ordering} (hf : IsCmpOn f) :
    ∀ a b c : List α, cmpList f a b = .eq → cmpList f a c = cmpList f b c := by
  intro a
  induction a with
  | nil => intro b c h; cases b with
    | nil => rfl
    | cons x xs => simp [cmpList] at h
  | cons x xs ih =>
    intro b c h
    cases b with
    | nil => simp [cmpList] at h
    | cons y ys =>
      rcases then_eq_eq.1 h with ⟨h1, h2⟩
      cases c with
      | nil => rfl
      | cons z zs =>
        show (f x z).then (cmpList f xs zs) = (f y z).then (cmpList f ys zs)
        rw [hf.eq_congr x y z h1, ih ys zs h2]

theorem cmpList_isCmpOn {f : α → α → Ordering} (hf : IsCmpOn f) :
    IsCmpOn (cmpList f) where
  rfl_eq a := by
    induction a with
    | nil => rfl
    | cons x xs ih =>
      show (f x x).then (cmpList f xs xs) = .eq
      rw [hf.rfl_eq, ih]; rfl
  swap_eq a := by
    induction a with
    | nil => intro b; cases b <;> rfl
    | cons x xs ih =>
      intro b
      cases b with
      | nil => rfl
      | cons y ys =>
        show ((f x y).then (cmpList f xs ys)).swap = (f y x).then (cmpList f ys xs)
        rw [then_swap, hf.swap_eq, ih ys]
  lt_trans a := by
    induction a with
    | nil =>
      intro b c hab hbc
      cases b with
      | nil => simp [cmpList] at hab
      | cons y ys =>
        cases c with
        | nil => simp [cmpList] at hbc
        | cons z zs => rfl
    | cons x xs ih =>
      intro b c hab hbc
      cases b with
      | nil => simp [cmpList] at hab
      | cons y ys =>
        cases c with
        | nil => simp [cmpList] at hbc
        | cons z zs =>
          rcases then_eq_lt.1 hab with h1 | ⟨h1, h2⟩ <;>
            rcases then_eq_lt.1 hbc with h3 | ⟨h3, h4⟩
          · exact then_eq_lt.2 (.inl (hf.lt_trans x y z h1 h3))
          · exact then_eq_lt.2 (.inl ((hf.eq_congr_right y z x h3) ▸ h1))
          · exact then_eq_lt.2 (.inl ((hf.eq_congr x y z h1) ▸ h3))
          · exact then_eq_lt.2 (.inr ⟨(hf.eq_congr x y z h1).trans h3, ih ys zs h2 h4⟩)
  eq_congr := cmpList_eq_congr hf

theorem cmpStr_isCmpOn : IsCmpOn cmpStr := cmpList_isCmpOn cmpChar_isCmpOn

theorem cmpPreId_isCmpOn : IsCmpOn cmpPreId where
  rfl_eq a := by
    cases a with
    | num n => exact Nat.compare_eq_eq.2 rfl
    | alpha s => exact cmpStr_isCmpOn.rfl_eq s
  swap_eq a b := by
    cases a <;> cases b
    · exact natCmp_isCmpOn.swap_eq _ _
    · rfl
    · rfl
    · exact cmpStr_isCmpOn.swap_eq _ _
  lt_trans a b c hab hbc := by
    cases a <;> cases b <;> cases c
    · exact natCmp_isCmpOn.lt_trans _ _ _ hab hbc
    · rfl
    · simp [cmpPreId] at hbc
    · rfl
    · simp [cmpPreId] at hab
    · simp [cmpPreId] at hab
    · simp [cmpPreId] at hbc
    · exact cmpStr_isCmpOn.lt_trans _ _ _ hab hbc
  eq_congr a b c h := by
    cases a <;> cases b
    · have : _ = _ := Nat.compare_eq_eq.1 h
      rw [this]
    · simp [cmpPreId] at h
    · simp [cmpPreId] at h
    · cases c
      · rfl
      · exact cmpStr_isCmpOn.eq_congr _ _ _ h

theorem cmpPreList_isCmpOn : IsCmpOn cmpPreList := cmpList_isCmpOn cmpPreId_isCmpOn

theorem cmpPre_isCmpOn : IsCmpOn cmpPre where
  rfl_eq a := by
    cases a with
    | nil => rfl
    | cons x xs => exact cmpPreList_isCmpOn.rfl_eq (x :: xs)
  swap_eq a b := by
    cases a <;> cases b
    · rfl
    · rfl
    · rfl
    · exact cmpPreList_isCmpOn.swap_eq _ _
  lt_trans a b c hab hbc := by
    cases a with
    | nil => cases b <;> simp [cmpPre] at hab
    | cons x xs =>
      cases b with
      | nil => cases c <;> simp [cmpPre] at hbc
      | cons y ys =>
        cases c with
        | nil => rfl
        | cons z zs => exact cmpPreList_isCmpOn.lt_trans _ _ _ hab hbc
  eq_congr a b c h := by
    cases a with
    | nil => cases b with
      | nil => rfl
      | cons y ys => simp [cmpPre] at h
    | cons x xs =>
      cases b with
      | nil => simp [cmpPre] at h
      | cons y ys =>
        cases c with
        | nil => rfl
        | cons z zs => exact cmpPreList_isCmpOn.eq_congr _ _ _ h

theorem cmpBuildId_isCmpOn : IsCmpOn cmpBuildId where
  rfl_eq a := by
    cases h : isDigitStr a <;> simp only [cmpBuildId, h]
    · exact cmpStr_isCmpOn.rfl_eq a
    · rw [natCmp_isCmpOn.rfl_eq, cmpStr_isCmpOn.rfl_eq]; rfl
  swap_eq a b := by
    cases ha : isDigitStr a <;> cases hb : isDigitStr b <;>
      simp only [cmpBuildId, ha, hb]
    · exact cmpStr_isCmpOn.swap_eq a b
    · rfl
    · rfl
    · rw [then_swap, natCmp_isCmpOn.swap_eq, cmpStr_isCmpOn.swap_eq]
  lt_trans a b c hab hbc := by
    cases ha : isDigitStr a <;> cases hb : isDigitStr b <;> cases hc : isDigitStr c <;>
      simp only [cmpBuildId, ha, hb, hc] at hab hbc ⊢
    all_goals first
      | exact cmpStr_isCmpOn.lt_trans a b c hab hbc
      | exact absurd hab (by decide)
      | exact absurd hbc (by decide)
      | rfl
      | (rcases then_eq_lt.1 hab with h1 | ⟨h1, h2⟩ <;>
          rcases then_eq_lt.1 hbc with h3 | ⟨h3, h4⟩
         · exact then_eq_lt.2 (.inl (natCmp_isCmpOn.lt_trans _ _ _ h1 h3))
         · exact then_eq_lt.2 (.inl ((natCmp_isCmpOn.eq_congr_right _ _ _ h3) ▸ h1))
         · exact then_eq_lt.2 (.inl ((natCmp_isCmpOn.eq_congr _ _ _ h1) ▸ h3))
         · exact then_eq_lt.2 (.inr ⟨(natCmp_isCmpOn.eq_congr _ _ _ h1).trans h3,
             cmpStr_isCmpOn.lt_trans a b c h2 h4⟩))
  eq_congr a b c h := by
    cases ha : isDigitStr a <;> cases hb : isDigitStr b <;>
      simp only [cmpBuildId, ha, hb] at h <;> cases hc : isDigitStr c <;>
      simp only [cmpBuildId, ha, hb, hc]
    all_goals first
      | rfl
      | exact absurd h (by decide)
      | exact cmpStr_isCmpOn.eq_congr a b c h
      | (rcases then_eq_eq.1 h with ⟨h1, h2⟩
         first
           | exact cmpStr_isCmpOn.eq_congr a b c h2
           | rw [Nat.compare_eq_eq.1 h1, cmpStr_isCmpOn.eq_congr a b c h2])

theorem cmpBuild_isCmpOn : IsCmpOn cmpBuild := cmpList_isCmpOn cmpBuildId_isCmpOn

theorem precCompare_isCmpOn : IsCmpOn precCompare := by
  show IsCmpOn (fun a b : Version =>
    (compare a.major b.major).then ((compare a.minor b.minor).then
      ((compare a.patch b.patch).then (cmpPre a.pre b.pre))))
  exact isCmpOn_then (isCmpOn_comap natCmp_isCmpOn Version.major)
    (isCmpOn_then (isCmpOn_comap natCmp_isCmpOn Version.minor)
      (isCmpOn_then (isCmpOn_comap natCmp_isCmpOn Version.patch)
        (isCmpOn_comap cmpPre_isCmpOn Version.pre)))

theorem versionCompare_isCmpOn : IsCmpOn versionCompare := by
  show IsCmpOn (fun a b : Version => (precCompare a b).then (cmpBuild a.build b.build))
  exact isCmpOn_then precCompare_isCmpOn (isCmpOn_comap cmpBuild_isCmpOn Version.build)

theorem vle_refl (v : Version) : vle v v = true := by
  unfold vle
  rw [versionCompare_isCmpOn.rfl_eq]

theorem vle_total (a b : Version) : (vle a b || vle b a) = true := by
  unfold vle
  cases h : versionCompare a b
  · simp
  · simp
  · have : versionCompare b a = .lt := by
      rw [← versionCompare_isCmpOn.swap_eq, h]; rfl
    rw [this]
    simp

theorem vle_trans (a b c : Version) (hab : vle a b = true) (hbc : vle b c = true) :
    vle a c = true := by
  unfold vle at *
  cases hab2 : versionCompare a b
  case lt =>
    cases hbc2 : versionCompare b c
    case lt => rw [versionCompare_isCmpOn.lt_trans a b c hab2 hbc2]
    case eq => rw [← versionCompare_isCmpOn.eq_congr_right b c a hbc2, hab2]
    case gt => rw [hbc2] at hbc; exact Bool.noConfusion hbc
  case eq =>
    rw [versionCompare_isCmpOn.eq_congr a b c hab2]
    exact hbc
  case gt => rw [hab2] at hab; exact Bool.noConfusion hab

theorem vle_imp_precGe {a b : Version} (h : vle a b = true) : precGe b a = true := by
  unfold vle at h
  unfold precGe
  cases hp : precCompare a b
  · rfl
  · rfl
  · exfalso
    have : versionCompare a b = .gt := by
      show (precCompare a b).then (cmpBuild a.build b.build) = .gt
      rw [hp]; rfl
    rw [this] at h
    cases h

theorem precGe_refl (v : Version) : precGe v v = true := by
  unfold precGe
  rw [precCompare_isCmpOn.rfl_eq]

/-! ## Sorted lists: the last element and the highest match -/

theorem mem_of_getLast_some {α : Type} : ∀ (l : List α) (v : α), l.getLast? = some v → v ∈ l
  | [], v, h => by simp at h
  | [a], v, h => by
    rw [List.getLast?_singleton] at h
    cases h
    exact List.mem_singleton_self a
  | a :: b :: t, v, h => by
    rw [List.getLast?_cons_cons] at h
    exact List.mem_cons_of_mem a (mem_of_getLast_some (b :: t) v h)

theorem pairwise_getLast_le {α : Type} {le : α → α → Bool} :
    ∀ (l : List α), l.Pairwise (fun a b => le a b = true) → ∀ v, l.getLast? = some v →
      ∀ w ∈ l, w = v ∨ le w v = true
  | [], _, v, h => by simp at h
  | [a], _, v, h => by
    rw [List.getLast?_singleton] at h
    cases h
    intro w hw
    rw [List.mem_singleton] at hw
    exact .inl hw
  | a :: b :: t, hp, v, h => by
    rw [List.getLast?_cons_cons] at h
    have hv : v ∈ b :: t := mem_of_getLast_some (b :: t) v h
    intro w hw
    rcases List.mem_cons.1 hw with rfl | hw2
    · exact .inr ((List.pairwise_cons.1 hp).1 v hv)
    · exact pairwise_getLast_le (b :: t) (List.pairwise_cons.1 hp).2 v h w hw2

theorem find_desc_max {α : Type} {le : α → α → Bool} (hrefl : ∀ x, le x x = true) :
    ∀ (l : List α), l.Pairwise (fun a b => le b a = true) → ∀ (p : α → Bool) (v : α),
      l.find? p = some v → p v = true ∧ v ∈ l ∧ ∀ w ∈ l, p w = true → le w v = true
  | [], _, p, v, h => by simp at h
  | a :: t, hp, p, v, h => by
    by_cases hpa : p a = true
    · rw [List.find?_cons_of_pos t hpa] at h
      cases h
      refine ⟨hpa, List.mem_cons_self a t, ?_⟩
      intro w hw _
      rcases List.mem_cons.1 hw with rfl | hw2
      · exact hrefl w
      · exact (List.pairwise_cons.1 hp).1 w hw2
    · rw [List.find?_cons_of_neg t hpa] at h
      obtain ⟨h1, h2, h3⟩ := find_desc_max hrefl t (List.pairwise_cons.1 hp).2 p v h
      refine ⟨h1, List.mem_cons_of_mem a h2, ?_⟩
      intro w hw hpw
      rcases List.mem_cons.1 hw with rfl | hw2
      · exact absurd hpw hpa
      · exact h3 w hw2 hpw

/-- C4: registry resolution discards yanked and unparsable entries; an
empty remainder fails with `NoVersionsFound`; with no constraint it
returns a surviving version of maximal SemVer precedence; with a
constraint it returns a surviving matching version that is
precedence-highest among the matches, failing with `NoMatchingVersion`
exactly when versions survive but none matches. -/
theorem fetch_highest_matching_version_spec (entries : List CrateVersion) :
    (∀ requirement, fetch_highest_matching_version entries requirement
        = .error .NoVersionsFound ↔ survivingVersions entries = []) ∧
    (∀ v, fetch_highest_matching_version entries none = .ok v →
      v ∈ survivingVersions entries ∧
      ∀ w ∈ survivingVersions entries, precGe v w = true) ∧
    (survivingVersions entries ≠ [] →
      ∃ v, fetch_highest_matching_version entries none = .ok v) ∧
    (∀ req v, fetch_highest_matching_version entries (some req) = .ok v →
      v ∈ survivingVersions entries ∧ matchesReq req v = true ∧
      ∀ w ∈ survivingVersions entries, matchesReq req w = true → precGe v w = true) ∧
    (∀ req, fetch_highest_matching_version entries (some req)
        = .error .NoMatchingVersion ↔
      survivingVersions entries ≠ [] ∧
      ∀ w ∈ survivingVersions entries, matchesReq req w = false) := by
  haveI htot : IsTotal Version (fun a b => vle a b = true) :=
    ⟨fun a b => (Bool.or_eq_true (vle a b) (vle b a)) ▸ vle_total a b⟩
  haveI htrans : IsTrans Version (fun a b => vle a b = true) :=
    ⟨fun a b c => vle_trans a b c⟩
  have hperm : List.Perm (sortVersions (survivingVersions entries))
      (survivingVersions entries) :=
    List.perm_insertionSort (fun a b => vle a b = true) (survivingVersions entries)
  have hsorted : (sortVersions (survivingVersions entries)).Pairwise
      (fun a b => vle a b = true) :=
    List.sorted_insertionSort (fun a b => vle a b = true) (survivingVersions entries)
  have hsne : survivingVersions entries ≠ [] →
      sortVersions (survivingVersions entries) ≠ [] := by
    intro hne h0
    apply hne
    have hl := hperm.length_eq
    rw [h0] at hl
    exact List.length_eq_zero.1 hl.symm
  have hempty : ∀ requirement, (survivingVersions entries).isEmpty = true →
      fetch_highest_matching_version entries requirement = .error .NoVersionsFound := by
    intro requirement he
    simp only [fetch_highest_matching_version]
    rw [if_pos he]
  have hnone : (survivingVersions entries).isEmpty = false →
      fetch_highest_matching_version entries none =
        match (sortVersions (survivingVersions entries)).getLast? with
        | some v => .ok v
        | none => .error .NoVersionsFound := by
    intro he
    simp only [fetch_highest_matching_version]
    rw [if_neg (by simp [he])]
  have hsome : ∀ req, (survivingVersions entries).isEmpty = false →
      fetch_highest_matching_version entries (some req) =
        match (sortVersions (survivingVersions entries)).reverse.find?
            (fun v => matchesReq req v) with
        | some v => .ok v
        | none => .error .NoMatchingVersion := by
    intro req he
    simp only [fetch_highest_matching_version]
    rw [if_neg (by simp [he])]
  refine ⟨?_, ?_, ?_, ?_, ?_⟩
  · intro requirement
    constructor
    · intro h
      by_contra hne
      have he : (survivingVersions entries).isEmpty = false := by
        simp [List.isEmpty_iff, hne]
      cases requirement with
      | none =>
        rw [hnone he] at h
        split at h
        · cases h
        · next hg => exact hsne hne (List.getLast?_eq_none_iff.1 hg)
      | some req =>
        rw [hsome req he] at h
        split at h
        · cases h
        · injection h with h2; cases h2
    · intro h
      exact hempty requirement (by simp [List.isEmpty_iff, h])
  · intro v hv
    by_cases he : (survivingVersions entries).isEmpty = true
    · rw [hempty none he] at hv; cases hv
    · rw [hnone (Bool.eq_false_iff.2 he)] at hv
      split at hv
      · next u hg =>
        injection hv with hv2
        subst hv2
        constructor
        · exact hperm.mem_iff.1 (mem_of_getLast_some _ u hg)
        · intro w hw
          rcases pairwise_getLast_le _ hsorted u hg w (hperm.mem_iff.2 hw) with rfl | hle
          · exact precGe_refl w
          · exact vle_imp_precGe hle
      · cases hv
  · intro hne
    cases hg : (sortVersions (survivingVersions entries)).getLast? with
    | none => exact absurd (List.getLast?_eq_none_iff.1 hg) (hsne hne)
    | some u =>
      refine ⟨u, ?_⟩
      rw [hnone (by simp [List.isEmpty_iff, hne]), hg]
  · intro req v hv
    by_cases he : (survivingVersions entries).isEmpty = true
    · rw [hempty (some req) he] at hv; cases hv
    · rw [hsome req (Bool.eq_false_iff.2 he)] at hv
      split at hv
      · next u hf =>
        injection hv with hv2
        subst hv2
        have hrev : ((sortVersions (survivingVersions entries)).reverse).Pairwise
            (fun a b => vle b a = true) := List.pairwise_reverse.2 hsorted
        obtain ⟨h1, h2, h3⟩ := find_desc_max vle_refl _ hrev _ _ hf
        refine ⟨hperm.mem_iff.1 (List.mem_reverse.1 h2), h1, ?_⟩
        intro w hw hpw
        exact vle_imp_precGe (h3 w (List.mem_reverse.2 (hperm.mem_iff.2 hw)) hpw)
      · cases hv
  · intro req
    constructor
    · intro h
      by_cases he : (survivingVersions entries).isEmpty = true
      · rw [hempty (some req) he] at h; injection h with h2; cases h2
      · rw [hsome req (Bool.eq_false_iff.2 he)] at h
        refine ⟨by simpa [List.isEmpty_iff] using he, ?_⟩
        split at h
        · cases h
        · next hf =>
          intro w hw
          have hnw := List.find?_eq_none.1 hf w
            (List.mem_reverse.2 (hperm.mem_iff.2 hw))
          exact Bool.eq_false_iff.2 (fun hx => hnw (by simpa using hx))
    · rintro ⟨hne, hall⟩
      rw [hsome req (by simp [List.isEmpty_iff, hne])]
      have hf : (sortVersions (survivingVersions entries)).reverse.find?
          (fun w => matchesReq req w) = none := by
        refine List.find?_eq_none.2 (fun a ha hx => ?_)
        have := hall a (hperm.mem_iff.1 (List.mem_reverse.1 ha))
        simp [this] at hx
      rw [hf]

/-- Witness for C4 at the spec's registry example: no constraint resolves
to 2.0.0, constraint `^1.0.0` resolves to 1.5.0 (the yanked 1.2.0
excluded), and both are precedence-maximal among the surviving versions. -/
theorem fetch_highest_matching_version_spec_witness :
    (fetch_highest_matching_version exampleEntries none = .ok v200 ∧
      fetch_highest_matching_version exampleEntries (some caretReq100) = .ok v150) ∧
    (v200 ∈ survivingVersions exampleEntries ∧
      ∀ w ∈ survivingVersions exampleEntries, precGe v200 w = true) ∧
    (v150 ∈ survivingVersions exampleEntries ∧ matchesReq caretReq100 v150 = true ∧
      ∀ w ∈ survivingVersions exampleEntries, matchesReq caretReq100 w = true →
        precGe v150 w = true) :=
  ⟨⟨rfl, rfl⟩,
    (fetch_highest_matching_version_spec exampleEntries).2.1 v200 rfl,
    (fetch_highest_matching_version_spec exampleEntries).2.2.2.1 caretReq100 v150 rfl⟩

/-- Looking up a key after a run of removals followed by one `set`. -/
theorem childEnv_removeAll_set (ambient : Env) (ks : List Str) (k v q : Str) :
    childEnv ambient (ks.map EnvOp.remove ++ [EnvOp.set k v]) q =
      if q = k then some v else if q ∈ ks then none else ambient q := by
  induction ks generalizing ambient with
  | nil => simp [childEnv, applyOp]
  | cons k0 ks ih =>
    show childEnv (applyOp ambient (EnvOp.remove k0))
        (ks.map EnvOp.remove ++ [EnvOp.set k v]) q = _
    rw [ih]
    by_cases h1 : q = k
    · simp [h1]
    · by_cases h2 : q ∈ ks <;> by_cases h3 : q = k0 <;>
        simp [applyOp, h1, h2, h3, List.mem_cons]

/-- C3: for every ambient environment binding all removal-list variables
plus one unrelated variable, the sanitized child environment keeps the
unrelated variable unchanged, drops every removal-list variable other than
the injected one, and binds `CARGO_INSTALL_ROOT` to the private install
root. -/
theorem sanitize_cargo_env_spec (ambient : Env) (install_dir u : Str)
    (hall : ∀ v ∈ vars_to_remove, (ambient v).isSome = true)
    (hu : u ∉ vars_to_remove) (hu2 : u ≠ str "CARGO_INSTALL_ROOT") :
    childEnv ambient (sanitize_cargo_env install_dir) u = ambient u ∧
    (∀ v ∈ vars_to_remove, v ≠ str "CARGO_INSTALL_ROOT" →
      childEnv ambient (sanitize_cargo_env install_dir) v = none) ∧
    childEnv ambient (sanitize_cargo_env install_dir) (str "CARGO_INSTALL_ROOT")
      = some install_dir := by
  refine ⟨?_, ?_, ?_⟩
  · rw [sanitize_cargo_env, childEnv_removeAll_set, if_neg hu2, if_neg hu]
  · intro v hv hne
    rw [sanitize_cargo_env, childEnv_removeAll_set, if_neg hne, if_pos hv]
  · rw [sanitize_cargo_env, childEnv_removeAll_set, if_pos rfl]

/-- Witness for C3 at a concrete environment. -/
theorem sanitize_cargo_env_spec_witness :
    ((∀ v ∈ vars_to_remove, (ambientFull v).isSome = true) ∧
      str "SOME_OTHER_VAR" ∉ vars_to_remove ∧
      str "SOME_OTHER_VAR" ≠ str "CARGO_INSTALL_ROOT") ∧
    (childEnv ambientFull (sanitize_cargo_env (str "/install/root")) (str "SOME_OTHER_VAR")
        = ambientFull (str "SOME_OTHER_VAR") ∧
      (∀ v ∈ vars_to_remove, v ≠ str "CARGO_INSTALL_ROOT" →
        childEnv ambientFull (sanitize_cargo_env (str "/install/root")) v = none) ∧
      childEnv ambientFull (sanitize_cargo_env (str "/install/root"))
          (str "CARGO_INSTALL_ROOT") = some (str "/install/root")) :=
  ⟨⟨by decide, by decide, by decide⟩,
    sanitize_cargo_env_spec ambientFull (str "/install/root") (str "SOME_OTHER_VAR")
      (by decide) (by decide) (by decide)⟩

/-- C2 (code bug): for every ambient environment, scratch directory and
install root, the child environment `install_with_cargo` hands to
`cargo install` has `CARGO_TARGET_DIR` *unset*: the `cmd.env` edit of line
106 is overridden by the `cmd.env_remove` that `sanitize_cargo_env`
records afterwards (line 107), because for the same key the later edit on
a `std::process::Command` wins. -/
theorem install_with_cargo_no_scratch_dir (ambient : Env) (temp_dir install_dir : Str) :
    childEnv ambient (install_with_cargo_env temp_dir install_dir)
      (str "CARGO_TARGET_DIR") = none := by
  show childEnv (applyOp ambient (EnvOp.set (str "CARGO_TARGET_DIR") temp_dir))
      (sanitize_cargo_env install_dir) (str "CARGO_TARGET_DIR") = none
  rw [sanitize_cargo_env, childEnv_removeAll_set, if_neg (by decide), if_pos (by decide)]

/-- Finalising right after the backend deposited content `c` always
succeeds and produces the filesystem with `c` moved onto the versioned
path and the deposited file gone. -/
theorem finalize_after_deposit (pf : Platform) (fs : FS) (install_dir binary c : Str)
    (version : Version) :
    finalize_installation pf (depositBinary fs install_dir binary c) install_dir binary
        version =
      .ok (fun p =>
        if p = versioned_binary_path install_dir binary version then some c
        else if p = install_dir ++ str "/bin" ++ str "/" ++ binary then none
        else depositBinary fs install_dir binary c p) := by
  simp [finalize_installation, depositBinary]

/-- C5: installing version `V` (backend deposit, then finalisation) and
then re-installing the same `V` succeeds both times — the pre-existing
file at the versioned path is overwritten, not an error — and leaves the
content of the most recent install at the deterministic versioned path. -/
theorem finalize_installation_idempotent_overwrite (pf : Platform) (fs : FS)
    (install_dir binary c1 c2 : Str) (version : Version) :
    ∃ fs1 fs2,
      finalize_installation pf (depositBinary fs install_dir binary c1) install_dir
          binary version = .ok fs1 ∧
      fs1 (versioned_binary_path install_dir binary version) = some c1 ∧
      finalize_installation pf (depositBinary fs1 install_dir binary c2) install_dir
          binary version = .ok fs2 ∧
      fs2 (versioned_binary_path install_dir binary version) = some c2 := by
  refine ⟨_, _, finalize_after_deposit pf fs install_dir binary c1 version, by simp,
    finalize_after_deposit pf _ install_dir binary c2 version, by simp⟩

/-- C6: install-root discovery checks the explicit `CARGOX_INSTALL_DIR`
override first, then the platform data directory, then the
`~/.local/share/cargox` fallback; it fails with `NoInstallDirectory`
exactly when none of these is determined; and its result never depends on
the generic tooling variables. -/
theorem get_install_dir_spec (env : Env) :
    (∀ p, env (str "CARGOX_INSTALL_DIR") = some p → get_install_dir env = .ok p) ∧
    (env (str "CARGOX_INSTALL_DIR") = none → ∀ d, project_data_dir env = some d →
      get_install_dir env = .ok d) ∧
    (env (str "CARGOX_INSTALL_DIR") = none → project_data_dir env = none →
      ∀ h, home_dir env = some h →
      get_install_dir env = .ok (h ++ str "/.local/share/cargox")) ∧
    (get_install_dir env = .error .NoInstallDirectory ↔
      env (str "CARGOX_INSTALL_DIR") = none ∧ project_data_dir env = none ∧
        home_dir env = none) ∧
    (∀ env2 : Env,
      (∀ k, k ∉ [str "CARGO_INSTALL_ROOT", str "CARGO_HOME",
          str "BINSTALL_INSTALL_PATH"] → env k = env2 k) →
      get_install_dir env = get_install_dir env2) := by
  refine ⟨?_, ?_, ?_, ?_, ?_⟩
  · intro p hp; simp [get_install_dir, hp]
  · intro h d hd; simp [get_install_dir, h, hd]
  · intro h hd hh hhome; simp [get_install_dir, h, hd, hhome]
  · unfold get_install_dir
    cases h1 : env (str "CARGOX_INSTALL_DIR") <;>
      cases h2 : project_data_dir env <;>
      cases h3 : home_dir env <;> simp
  · intro env2 hagree
    have e1 := hagree (str "CARGOX_INSTALL_DIR") (by decide)
    have e2 := hagree (str "HOME") (by decide)
    have e3 := hagree (str "XDG_DATA_HOME") (by decide)
    have e4 := hagree (str "USERPROFILE") (by decide)
    unfold get_install_dir project_data_dir home_dir
    rw [e1, e2, e3, e4]

/-- A concrete environment with only the explicit override set. -/
def envOverrideOnly : Env := envOfList [(str "CARGOX_INSTALL_DIR", str "/custom/cargox")]

/-- Witness for C6: with `CARGOX_INSTALL_DIR` set (and `CARGO_INSTALL_ROOT`
absent or present — the result does not change), discovery returns the
override. -/
theorem get_install_dir_spec_witness :
    envOverrideOnly (str "CARGOX_INSTALL_DIR") = some (str "/custom/cargox") ∧
    get_install_dir envOverrideOnly = .ok (str "/custom/cargox") :=
  ⟨by decide,
    (get_install_dir_spec envOverrideOnly).1 (str "/custom/cargox") (by decide)⟩

/-- C7: unversioned binary lookup searches the system PATH first, then the
install root's `bin` subdirectory, then the install root itself (probing
the `.exe` variant on Windows), returning the first hit; finding nothing
anywhere is a miss (`none`). -/
theorem resolve_binary_path_spec (env : Env) (which : Str → Option Str)
    (ex : Str → Bool) (pf : Platform) (name : Str) :
    (∀ p, which name = some p → resolve_binary_path env which ex pf name = some p) ∧
    (∀ install_dir, which name = none → get_install_dir env = .ok install_dir →
      (ex (install_dir ++ str "/bin" ++ str "/" ++ name) = true →
        resolve_binary_path env which ex pf name
          = some (install_dir ++ str "/bin" ++ str "/" ++ name)) ∧
      (ex (install_dir ++ str "/bin" ++ str "/" ++ name) = false →
        pf.windows = true →
        ex (install_dir ++ str "/bin" ++ str "/" ++ name ++ str ".exe") = true →
        resolve_binary_path env which ex pf name
          = some (install_dir ++ str "/bin" ++ str "/" ++ name ++ str ".exe")) ∧
      (ex (install_dir ++ str "/bin" ++ str "/" ++ name) = false →
        (pf.windows = true →
          ex (install_dir ++ str "/bin" ++ str "/" ++ name ++ str ".exe") = false) →
        ex (install_dir ++ str "/" ++ name) = true →
        resolve_binary_path env which ex pf name
          = some (install_dir ++ str "/" ++ name)) ∧
      (ex (install_dir ++ str "/bin" ++ str "/" ++ name) = false →
        ex (install_dir ++ str "/" ++ name) = false →
        (pf.windows = true →
          ex (install_dir ++ str "/bin" ++ str "/" ++ name ++ str ".exe") = false ∧
          ex (install_dir ++ str "/" ++ name ++ str ".exe") = false) →
        resolve_binary_path env which ex pf name = none)) := by
  constructor
  · intro p hp; simp [resolve_binary_path, hp]
  · intro install_dir hw hd
    refine ⟨?_, ?_, ?_, ?_⟩
    · intro h1
      simp only [List.append_assoc] at h1
      simp [resolve_binary_path, hw, candidate_bin_dirs, hd, probe_dirs, h1]
    · intro h1 hwin h2
      simp only [List.append_assoc] at h1 h2
      simp [resolve_binary_path, hw, candidate_bin_dirs, hd, probe_dirs, h1, hwin, h2]
    · intro h1 hexe h2
      simp only [List.append_assoc] at h1 h2
      cases hwin : pf.windows with
      | false =>
        simp [resolve_binary_path, hw, candidate_bin_dirs, hd, probe_dirs, h1, hwin, h2]
      | true =>
        have he := hexe hwin
        simp only [List.append_assoc] at he
        simp [resolve_binary_path, hw, candidate_bin_dirs, hd, probe_dirs, h1, hwin,
          he, h2]
    · intro h1 h2 hexe
      simp only [List.append_assoc] at h1 h2
      cases hwin : pf.windows with
      | false =>
        simp [resolve_binary_path, hw, candidate_bin_dirs, hd, probe_dirs, h1, hwin, h2]
      | true =>
        have he1 := (hexe hwin).1
        have he2 := (hexe hwin).2
        simp only [List.append_assoc] at he1 he2
        simp [resolve_binary_path, hw, candidate_bin_dirs, hd, probe_dirs, h1, hwin,
          he1, he2, h2]

/-- Witness for C7: PATH wins when `which` finds the binary. -/
theorem resolve_binary_path_spec_witness :
    ((fun q => if q = str "rg" then some (str "/usr/bin/rg") else none) (str "rg")
        = some (str "/usr/bin/rg")) ∧
    resolve_binary_path envOverrideOnly
        (fun q => if q = str "rg" then some (str "/usr/bin/rg") else none)
        (fun _ => false) ⟨false⟩ (str "rg") = some (str "/usr/bin/rg") :=
  ⟨by decide,
    (resolve_binary_path_spec envOverrideOnly
        (fun q => if q = str "rg" then some (str "/usr/bin/rg") else none)
        (fun _ => false) ⟨false⟩ (str "rg")).1 (str "/usr/bin/rg") (by decide)⟩

/-! ## String utility lemmas -/

theorem splitOnChar_ne_nil (c : Char) (s : Str) : splitOnChar c s ≠ [] := by
  cases s with
  | nil => simp [splitOnChar]
  | cons x xs =>
    simp only [splitOnChar]
    cases h : splitOnChar c xs with
    | nil => simp
    | cons p ps => by_cases hx : x = c <;> simp [hx]

theorem not_mem_of_contains_false {c : Char} {s : Str} (h : s.contains c = false) :
    c ∉ s := by
  intro hm
  rw [show s.contains c = s.elem c from rfl, List.elem_iff.2 hm] at h
  cases h

theorem splitOnChar_of_not_mem {c : Char} {s : Str} (h : c ∉ s) :
    splitOnChar c s = [s] := by
  induction s with
  | nil => rfl
  | cons x xs ih =>
    have hx : ¬(x = c) := fun he => h (he ▸ List.mem_cons_self x xs)
    have hm : c ∉ xs := fun hm => h (List.mem_cons_of_mem x hm)
    simp only [splitOnChar, ih hm]
    rw [if_neg hx]

theorem splitOnChar_append (c : Char) {name : Str} (tok : Str) (h : c ∉ name) :
    splitOnChar c (name ++ c :: tok) = name :: splitOnChar c tok := by
  induction name with
  | nil =>
    simp only [List.nil_append, splitOnChar]
    cases hs : splitOnChar c tok with
    | nil => exact absurd hs (splitOnChar_ne_nil c tok)
    | cons p ps => simp
  | cons x xs ih =>
    have hx : ¬(x = c) := fun he => h (he ▸ List.mem_cons_self x _)
    have hm : c ∉ xs := fun hm => h (List.mem_cons_of_mem x hm)
    show splitOnChar c (x :: (xs ++ c :: tok)) = (x :: xs) :: splitOnChar c tok
    simp only [splitOnChar]
    rw [ih hm]
    show (if x = c then [] :: xs :: splitOnChar c tok
      else (x :: xs) :: splitOnChar c tok) = (x :: xs) :: splitOnChar c tok
    rw [if_neg hx]

theorem trimStr_ne_nil {s : Str} {x : Char} (hx : x ∈ s) (hw : isWs x = false) :
    trimStr s ≠ [] := by
  intro h
  unfold trimStr at h
  rw [List.reverse_eq_nil_iff, List.dropWhile_eq_nil_iff] at h
  have hd : s.dropWhile isWs ≠ [] := by
    intro h2
    rw [List.dropWhile_eq_nil_iff] at h2
    rw [h2 x hx] at hw
    cases hw
  have hh := List.head_dropWhile_not isWs s hd
  have hmem : (s.dropWhile isWs).head hd ∈ (s.dropWhile isWs).reverse :=
    List.mem_reverse.2 (List.head_mem hd)
  rw [h _ hmem] at hh
  cases hh

theorem trimStr_no_ws {s : Str} (h : ∀ c ∈ s, isWs c = false) : trimStr s = s := by
  have h1 : s.dropWhile isWs = s := by
    cases s with
    | nil => rfl
    | cons x xs => simp [List.dropWhile_cons, h x (List.mem_cons_self x xs)]
  unfold trimStr
  rw [h1]
  have h2 : s.reverse.dropWhile isWs = s.reverse := by
    cases hr : s.reverse with
    | nil => rfl
    | cons x xs =>
      have hx : x ∈ s := by
        rw [← List.mem_reverse, hr]
        exact List.mem_cons_self x xs
      simp [List.dropWhile_cons, h x hx]
  rw [h2, List.reverse_reverse]

theorem joinSep_splitOnChar (c : Char) : ∀ s : Str, joinSep c (splitOnChar c s) = s := by
  intro s
  induction s with
  | nil => rfl
  | cons x xs ih =>
    simp only [splitOnChar]
    cases hs : splitOnChar c xs with
    | nil => exact absurd hs (splitOnChar_ne_nil c xs)
    | cons p ps =>
      rw [hs] at ih
      show joinSep c (if x = c then [] :: p :: ps else (x :: p) :: ps) = x :: xs
      by_cases hx : x = c
      · rw [if_pos hx]
        subst hx
        show joinSep x ([] :: p :: ps) = x :: xs
        show [] ++ x :: joinSep x (p :: ps) = x :: xs
        rw [List.nil_append, ih]
      · rw [if_neg hx]
        cases ps with
        | nil =>
          show joinSep c [x :: p] = x :: xs
          show x :: p = x :: xs
          show x :: joinSep c [p] = x :: xs
          rw [ih]
        | cons q qs =>
          show joinSep c ((x :: p) :: q :: qs) = x :: xs
          show (x :: p) ++ c :: joinSep c (q :: qs) = x :: xs
          show x :: (p ++ c :: joinSep c (q :: qs)) = x :: xs
          show x :: joinSep c (p :: q :: qs) = x :: xs
          rw [ih]

/-- C8: `parse_spec` returns an error exactly for the inputs the
specification enumerates — empty or whitespace-only input, an empty name
before `@`, an empty version token after `@`, more than one `@`, or a
version token that is neither `latest` nor a parsable version range — and
in particular `""`, `"@1.0.0"`, `"foo@"` and `"foo@bar@baz"` all fail. -/
theorem parse_spec_error_cases :
    (∀ s : Str, (∃ e, parse_spec s = .error e) ↔ claimedInvalidSpec s = true) ∧
    parse_spec (str "") = .error .emptySpec ∧
    parse_spec (str "@1.0.0") = .error .emptyName ∧
    parse_spec (str "foo@") = .error .emptyVersion ∧
    parse_spec (str "foo@bar@baz") = .error .multipleAt := by
  refine ⟨?_, rfl, rfl, rfl, rfl⟩
  intro s
  by_cases h0 : (trimStr s).isEmpty = true
  · simp [parse_spec, claimedInvalidSpec, h0]
  · have h0f : (trimStr s).isEmpty = false := Bool.eq_false_iff.2 h0
    cases hp : splitOnChar '@' s with
    | nil => exact absurd hp (splitOnChar_ne_nil '@' s)
    | cons p rest =>
      cases rest with
      | nil =>
        by_cases h1 : (trimStr p).isEmpty = true
        · simp [parse_spec, claimedInvalidSpec, hp, h0f, h1]
        · simp [parse_spec, claimedInvalidSpec, hp, h0f, h1]
      | cons q rest2 =>
        cases rest2 with
        | nil =>
          by_cases h1 : (trimStr p).isEmpty = true
          · simp [parse_spec, claimedInvalidSpec, hp, h0f, h1]
          · by_cases h2 : (trimStr q).isEmpty = true
            · simp [parse_spec, claimedInvalidSpec, hp, h0f, h1, h2]
            · by_cases h3 : eqIgnoreAsciiCase (trimStr q) (str "latest") = true
              · simp [parse_spec, claimedInvalidSpec, hp, h0f, h1, h2, h3]
              · cases hr : reqParse (trimStr q) with
                | none =>
                  simp [parse_spec, claimedInvalidSpec, hp, h0f, h1, h2, h3, hr]
                | some req =>
                  simp [parse_spec, claimedInvalidSpec, hp, h0f, h1, h2, h3, hr]
        | cons r rest3 =>
          by_cases h1 : (trimStr p).isEmpty = true
          · simp [parse_spec, claimedInvalidSpec, hp, h0f, h1]
          · simp [parse_spec, claimedInvalidSpec, hp, h0f, h1]

/-! ## Digit characters and caret semantics -/

theorem digit_ne {c d : Char} (h : isDigitChar c = true) (hd : isDigitChar d = false) :
    c ≠ d := fun he => by rw [he] at h; rw [h] at hd; cases hd

theorem isWs_false_of_digit {c : Char} (h : isDigitChar c = true) : isWs c = false := by
  have h1 : ¬(c = ' ') := fun he => by rw [he] at h; exact absurd h (by decide)
  have h2 : ¬(c = '\t') := fun he => by rw [he] at h; exact absurd h (by decide)
  have h3 : ¬(c = '\n') := fun he => by rw [he] at h; exact absurd h (by decide)
  have h4 : ¬(c = '\r') := fun he => by rw [he] at h; exact absurd h (by decide)
  simp [isWs, h1, h2, h3, h4]

theorem asciiLower_of_digit {c : Char} (h : isDigitChar c = true) : asciiLower c = c := by
  simp only [isDigitChar, Bool.and_eq_true, decide_eq_true_eq] at h
  unfold asciiLower
  rw [if_neg]
  simp only [Bool.and_eq_true, decide_eq_true_eq, not_and]
  omega

theorem parseNumId_some {s : Str} {n : Nat} (h : parseNumId s = some n) :
    s ≠ [] ∧ ∀ c ∈ s, isDigitChar c = true := by
  unfold parseNumId at h
  by_cases h1 : s.isEmpty = true
  · rw [if_pos h1] at h; cases h
  · rw [if_neg h1] at h
    by_cases h2 : (!s.all isDigitChar) = true
    · rw [if_pos h2] at h; cases h
    · refine ⟨fun h0 => h1 (by rw [h0]; rfl), fun c hc => ?_⟩
      have hall : s.all isDigitChar = true := by
        cases hall2 : s.all isDigitChar
        · rw [hall2] at h2; exact absurd rfl h2
        · rfl
      exact List.all_eq_true.1 hall c hc

theorem parseNumId_not_wild {s : Str} {n : Nat} (h : parseNumId s = some n) :
    isWildTok s = false := by
  obtain ⟨hne, hdig⟩ := parseNumId_some h
  have h1 : ¬(s = ['*']) := fun he => by
    subst he
    exact absurd (hdig '*' (List.mem_singleton_self _)) (by decide)
  have h2 : ¬(s = ['x']) := fun he => by
    subst he
    exact absurd (hdig 'x' (List.mem_singleton_self _)) (by decide)
  have h3 : ¬(s = ['X']) := fun he => by
    subst he
    exact absurd (hdig 'X' (List.mem_singleton_self _)) (by decide)
  simp [isWildTok, h1, h2, h3]

theorem preGe_nil_nil : preGe [] [] = true := rfl

/-- The caret comparator the parser produces for a bare `X.Y.Z` matches a
version exactly under the spec's semantic-compatibility rules. -/
theorem matchesReq_caret_eq (X Y Z : Nat) (v : Version) :
    matchesReq [⟨.caret, X, some Y, some Z, []⟩] v = caretSpec X Y Z v := by
  rcases v with ⟨ma, mi, pa, pre, bld⟩
  cases pre with
  | cons p ps =>
    simp [matchesReq, preIsCompatible, caretSpec, matchesComparator, matchesCaret,
      preGe, cmpPre]
  | nil =>
    simp only [matchesReq, List.all_cons, List.all_nil, Bool.and_true, List.any_cons,
      List.any_nil, Bool.or_false, List.isEmpty_nil, Bool.true_or, Bool.and_true,
      matchesComparator, matchesCaret, preIsCompatible, preGe_nil_nil]
    rw [Bool.eq_iff_iff]
    simp only [caretSpec, tripleGe, tripleLt, nextBreaking, List.isEmpty_nil,
      Bool.true_and, Bool.and_eq_true, Bool.or_eq_true, decide_eq_true_eq, beq_iff_eq,
      preGe_nil_nil]
    by_cases hX : 0 < X <;> by_cases hY : 0 < Y <;>
      simp only [hX, hY, if_pos, if_neg, ite_true, ite_false, if_true, if_false] <;>
      split_ifs <;> simp_all <;> omega

theorem splitFirst_eq_none {c : Char} {s : Str} (h : c ∉ s) : splitFirst c s = none := by
  induction s with
  | nil => rfl
  | cons x xs ih =>
    have hx : ¬(x = c) := fun he => h (he ▸ List.mem_cons_self x xs)
    have hm : c ∉ xs := fun hm => h (List.mem_cons_of_mem x hm)
    simp [splitFirst, hx, ih hm]

/-- For a token that is a plain full triple `X.Y.Z`, `reqParse` yields the
single default (caret) comparator on `X.Y.Z`; such a token is never
`latest` and never empty. -/
theorem reqParse_of_fullTriple {s : Str} {X Y Z : Nat}
    (h : parseFullTriple s = some (X, Y, Z)) :
    reqParse s = some [⟨.caret, X, some Y, some Z, []⟩] ∧
    eqIgnoreAsciiCase s (str "latest") = false ∧ s ≠ [] := by
  unfold parseFullTriple at h
  split at h
  case h_2 => cases h
  case h_1 a b cc hs =>
    split at h
    case h_2 => cases h
    case h_1 X2 Y2 Z2 hA hB hC =>
      injection h with h
      injection h with hX h
      injection h with hY hZ
      rw [hX] at hA
      rw [hY] at hB
      rw [hZ] at hC
      obtain ⟨haneN, haD⟩ := parseNumId_some hA
      obtain ⟨hbneN, hbD⟩ := parseNumId_some hB
      obtain ⟨hcneN, hcD⟩ := parseNumId_some hC
      have hsj : s = a ++ '.' :: (b ++ '.' :: cc) := by
        have hj := joinSep_splitOnChar '.' s
        rw [hs] at hj
        simpa [joinSep] using hj.symm
      have hdigdot : ∀ ch ∈ s, isDigitChar ch = true ∨ ch = '.' := by
        intro ch hch
        rw [hsj] at hch
        rcases List.mem_append.1 hch with h1 | h2
        · exact .inl (haD ch h1)
        · rcases List.mem_cons.1 h2 with rfl | h3
          · exact .inr rfl
          · rcases List.mem_append.1 h3 with h4 | h5
            · exact .inl (hbD ch h4)
            · rcases List.mem_cons.1 h5 with rfl | h6
              · exact .inr rfl
              · exact .inl (hcD ch h6)
      have hnws : ∀ ch ∈ s, isWs ch = false := by
        intro ch hch
        rcases hdigdot ch hch with hd | rfl
        · exact isWs_false_of_digit hd
        · rfl
      have htrim : trimStr s = s := trimStr_no_ws hnws
      have hdot : '.' ∈ s := by
        rw [hsj]
        exact List.mem_append.2 (.inr (List.mem_cons_self _ _))
      have hsne : s ≠ [] := fun h0 => by rw [h0] at hdot; cases hdot
      have hnotmem : ∀ d : Char, isDigitChar d = false → ¬(d = '.') → d ∉ s := by
        intro d hd hdot2 hmem
        rcases hdigdot d hmem with h1 | h1
        · rw [h1] at hd; cases hd
        · exact hdot2 h1
      have hcomma : ',' ∉ s := hnotmem ',' (by decide) (by decide)
      have hminus : '-' ∉ s := hnotmem '-' (by decide) (by decide)
      have hwild : isWildTok s = false := by
        have h1 : ¬(s = ['*']) := fun he => by rw [he] at hdot; simp at hdot
        have h2 : ¬(s = ['x']) := fun he => by rw [he] at hdot; simp at hdot
        have h3 : ¬(s = ['X']) := fun he => by rw [he] at hdot; simp at hdot
        simp [isWildTok, h1, h2, h3]
      have hcomp : parseComparator s = some ⟨.caret, X, some Y, some Z, []⟩ := by
        cases a with
        | nil => exact absurd rfl haneN
        | cons d a2 =>
          have hd : isDigitChar d = true := haD d (List.mem_cons_self d a2)
          have hstrip : stripOp s = (none, s) := by
            rw [hsj]
            show stripOp (d :: (a2 ++ '.' :: (b ++ '.' :: cc))) = _
            have e1 : ¬(d = '>') := digit_ne hd (by decide)
            have e2 : ¬(d = '<') := digit_ne hd (by decide)
            have e3 : ¬(d = '=') := digit_ne hd (by decide)
            have e4 : ¬(d = '~') := digit_ne hd (by decide)
            have e5 : ¬(d = '^') := digit_ne hd (by decide)
            simp [stripOp, e1, e2, e3, e4, e5]
          have hsplit2 : splitFirst '-' s = none := splitFirst_eq_none hminus
          simp only [parseComparator, htrim, hstrip, hsplit2, hs, hA, hB, hC,
            parseNumId_not_wild hC]
          simp [parseNumId_not_wild hC]
      have hreq : reqParse s = some [⟨.caret, X, some Y, some Z, []⟩] := by
        unfold reqParse
        rw [htrim]
        rw [if_neg (by simp [List.isEmpty_iff, hsne]), if_neg (by simp [hwild])]
        rw [splitOnChar_of_not_mem hcomma]
        simp [List.mapM.loop, hcomp]
      have hlatest : eqIgnoreAsciiCase s (str "latest") = false := by
        cases a with
        | nil => exact absurd rfl haneN
        | cons d a2 =>
          have hd : isDigitChar d = true := haD d (List.mem_cons_self d a2)
          rw [hsj]
          show (((d :: a2) ++ '.' :: (b ++ '.' :: cc)).map asciiLower
            == str "latest") = false
          rw [show str "latest" = ['l', 'a', 't', 'e', 's', 't'] from rfl]
          simp only [List.cons_append, List.map_cons]
          rw [asciiLower_of_digit hd]
          have hne : ¬(d = 'l') := digit_ne hd (by decide)
          simp [List.cons_beq_cons, hne]
      exact ⟨hreq, hlatest, hsne⟩

/-- C9 counterexample: the empty string contains no `@`, yet the parser
does not yield `(trimmed input, Unspecified)` — it rejects the input — so
the claim's first clause is false as literally stated ("for every input
string with no `@`"). -/
theorem parse_spec_unspecified_counterexample :
    (str "").contains '@' = false ∧
    parse_spec (str "") ≠ .ok (trimStr (str ""), .Unspecified) := by
  refine ⟨rfl, fun h => ?_⟩
  rw [show parse_spec (str "") = .error .emptySpec from rfl] at h
  exact Except.noConfusion h

/-- C9 amended: restricted to well-formed names (trimmed-nonempty, no
`@`): an input with no `@` parses to the trimmed name with `Unspecified`;
`name@latest` (version token `latest` case-insensitively) parses to
`Latest`; and `name@X.Y.Z` parses to a requirement that matches exactly
the versions semantically compatible with `X.Y.Z` (caret rules). -/
theorem parse_spec_success_forms :
    (∀ s : Str, s.contains '@' = false → trimStr s ≠ [] →
      parse_spec s = .ok (trimStr s, .Unspecified)) ∧
    (∀ name tok : Str, name.contains '@' = false → trimStr name ≠ [] →
      tok.contains '@' = false →
      eqIgnoreAsciiCase (trimStr tok) (str "latest") = true →
      parse_spec (name ++ '@' :: tok) = .ok (trimStr name, .Latest)) ∧
    (∀ name tok : Str, ∀ X Y Z : Nat, name.contains '@' = false →
      trimStr name ≠ [] → tok.contains '@' = false →
      parseFullTriple (trimStr tok) = some (X, Y, Z) →
      ∃ req, parse_spec (name ++ '@' :: tok) = .ok (trimStr name, .Requirement req) ∧
        ∀ v : Version, matchesReq req v = caretSpec X Y Z v) := by
  have hat : isWs '@' = false := rfl
  refine ⟨?_, ?_, ?_⟩
  · intro s hc ht
    have hm := not_mem_of_contains_false hc
    simp [parse_spec, splitOnChar_of_not_mem hm, List.isEmpty_iff, ht]
  · intro name tok hcn htn hct hlat
    have hmn := not_mem_of_contains_false hcn
    have hmt := not_mem_of_contains_false hct
    have hsplit : splitOnChar '@' (name ++ '@' :: tok) = [name, tok] := by
      rw [splitOnChar_append '@' tok hmn, splitOnChar_of_not_mem hmt]
    have hne : trimStr (name ++ '@' :: tok) ≠ [] :=
      trimStr_ne_nil (List.mem_append.2 (.inr (List.mem_cons_self _ _))) hat
    have hver_ne : trimStr tok ≠ [] := by
      intro h0
      rw [h0] at hlat
      exact absurd hlat (by decide)
    simp [parse_spec, hsplit, List.isEmpty_iff, hne, htn, hver_ne, hlat]
  · intro name tok X Y Z hcn htn hct htrip
    obtain ⟨hreq, hlatest, hver_ne⟩ := reqParse_of_fullTriple htrip
    have hmn := not_mem_of_contains_false hcn
    have hmt := not_mem_of_contains_false hct
    have hsplit : splitOnChar '@' (name ++ '@' :: tok) = [name, tok] := by
      rw [splitOnChar_append '@' tok hmn, splitOnChar_of_not_mem hmt]
    have hne : trimStr (name ++ '@' :: tok) ≠ [] :=
      trimStr_ne_nil (List.mem_append.2 (.inr (List.mem_cons_self _ _))) hat
    refine ⟨[⟨.caret, X, some Y, some Z, []⟩], ?_, fun v => matchesReq_caret_eq X Y Z v⟩
    simp [parse_spec, hsplit, List.isEmpty_iff, hne, htn, hver_ne, hlatest, hreq]

/-- Witness for C9 (amended) at `ripgrep`, `ripgrep@LATEST` and
`tool@1.2.3`. -/
theorem parse_spec_success_forms_witness :
    ((str "ripgrep").contains '@' = false ∧ trimStr (str "ripgrep") ≠ [] ∧
      (str "LATEST").contains '@' = false ∧
      eqIgnoreAsciiCase (trimStr (str "LATEST")) (str "latest") = true ∧
      (str "1.2.3").contains '@' = false ∧
      parseFullTriple (trimStr (str "1.2.3")) = some (1, 2, 3)) ∧
    parse_spec (str "ripgrep") = .ok (trimStr (str "ripgrep"), .Unspecified) ∧
    parse_spec (str "ripgrep" ++ '@' :: str "LATEST")
      = .ok (trimStr (str "ripgrep"), .Latest) ∧
    (∃ req, parse_spec (str "tool" ++ '@' :: str "1.2.3")
        = .ok (trimStr (str "tool"), .Requirement req) ∧
      ∀ v : Version, matchesReq req v = caretSpec 1 2 3 v) :=
  ⟨⟨by decide, by decide, by decide, by decide, by decide, by decide⟩,
    parse_spec_success_forms.1 (str "ripgrep") (by decide) (by decide),
    parse_spec_success_forms.2.1 (str "ripgrep") (str "LATEST") (by decide) (by decide)
      (by decide) (by decide),
    parse_spec_success_forms.2.2 (str "tool") (str "1.2.3") 1 2 3 (by decide) (by decide)
      (by decide) (by decide)⟩

/-- C10: when the version request is `Unspecified`, force is off, and an
existing binary is found (on PATH or under the install root), the program
executes that binary directly: no registry query, no installer backend. -/
theorem unversioned_reuse_skips_install (cli : Cli) (target : Target) (env : Env)
    (which : Str → Option Str) (ex : Str → Bool) (pf : Platform)
    (binstall_on_path : Bool) (p : Str)
    (hforce : cli.force = false) (hver : target.version = .Unspecified)
    (hfind : find_existing_binary env which ex pf target.binary = some p) :
    run_application_plan cli target env which ex pf binstall_on_path = .runExisting p ∧
    plan_external_invocations
      (run_application_plan cli target env which ex pf binstall_on_path) = 0 ∧
    plan_registry_queries
      (run_application_plan cli target env which ex pf binstall_on_path) = 0 := by
  have hs : should_use_existing_binary cli target (find_existing_binary env which ex pf)
      = true := by
    simp [should_use_existing_binary, hforce, hver, VersionSpec.is_some, hfind]
  have hp : run_application_plan cli target env which ex pf binstall_on_path
      = .runExisting p := by
    simp [run_application_plan, hs, hfind]
  exact ⟨hp, by rw [hp]; rfl, by rw [hp]; rfl⟩

/-- Witness for C10: the binary `tool` is on PATH, the version request is
unspecified, force is off — the plan runs it directly. -/
theorem unversioned_reuse_skips_install_witness :
    (cliPlain.force = false ∧ targetUnversioned.version = .Unspecified ∧
      find_existing_binary envOverrideOnly
        (fun q => if q = str "tool" then some (str "/usr/bin/tool") else none)
        cachedEx ⟨false⟩ targetUnversioned.binary = some (str "/usr/bin/tool")) ∧
    run_application_plan cliPlain targetUnversioned envOverrideOnly
        (fun q => if q = str "tool" then some (str "/usr/bin/tool") else none)
        cachedEx ⟨false⟩ false = .runExisting (str "/usr/bin/tool") :=
  ⟨⟨by decide, by decide, by decide⟩,
    (unversioned_reuse_skips_install cliPlain targetUnversioned envOverrideOnly
        (fun q => if q = str "tool" then some (str "/usr/bin/tool") else none)
        cachedEx ⟨false⟩ false (str "/usr/bin/tool")
        (by decide) (by decide) (by decide)).1⟩

/-- C1 counterexample: requesting `tool@1.2.3` (exactly what `parse_spec`
yields for that spec) with the exact version already present at its
versioned path (the existence oracle answers true for every path, and
`which` even finds the binary on PATH) and force off, the program still
takes the install path and performs one external-tool invocation, not
zero. -/
theorem pinned_cached_counterexample :
    parse_spec (str "tool@1.2.3") = .ok (str "tool", .Requirement caretReq123) ∧
    cliPlain.force = false ∧
    cachedEx (versioned_binary_path (str "/custom/cargox") (str "tool")
      ⟨1, 2, 3, [], []⟩) = true ∧
    run_application_plan cliPlain targetPinned envOverrideOnly
        (fun _ => some (str "/usr/bin/tool")) cachedEx ⟨false⟩ false
      = .installThenRun .cargoInstall ∧
    plan_external_invocations
      (run_application_plan cliPlain targetPinned envOverrideOnly
        (fun _ => some (str "/usr/bin/tool")) cachedEx ⟨false⟩ false) ≠ 0 := by
  refine ⟨rfl, rfl, rfl, rfl, ?_⟩
  intro h
  simp [run_application_plan, should_use_existing_binary, targetPinned,
    VersionSpec.is_some, plan_external_invocations, ensure_installed_backend,
    cliPlain, backend_invocations] at h

/-- C1 amended: for every invocation whose spec pins a version (a
non-`Unspecified` request) — in particular an exact pin already installed
at its versioned path with force off — the program does not consult the
cache: it performs exactly one installer-backend invocation and then runs
the freshly placed binary. -/
theorem pinned_version_always_installs (cli : Cli) (target : Target) (env : Env)
    (which : Str → Option Str) (ex : Str → Bool) (pf : Platform)
    (binstall_on_path : Bool) (install_dir : Str) (v : Version)
    (hforce : cli.force = false)
    (hver : target.version.is_some = true)
    (hcached : ex (versioned_binary_path install_dir target.binary v) = true) :
    run_application_plan cli target env which ex pf binstall_on_path
      = .installThenRun (ensure_installed_backend cli binstall_on_path) ∧
    plan_external_invocations
      (run_application_plan cli target env which ex pf binstall_on_path) = 1 := by
  have hs : should_use_existing_binary cli target (find_existing_binary env which ex pf)
      = false := by
    simp [should_use_existing_binary, hforce, hver]
  have hp : run_application_plan cli target env which ex pf binstall_on_path
      = .installThenRun (ensure_installed_backend cli binstall_on_path) := by
    simp [run_application_plan, hs]
  refine ⟨hp, by rw [hp]; cases ensure_installed_backend cli binstall_on_path <;> rfl⟩

/-- Witness for C1 (amended) at the counterexample's concrete input. -/
theorem pinned_version_always_installs_witness :
    (cliPlain.force = false ∧ targetPinned.version.is_some = true ∧
      cachedEx (versioned_binary_path (str "/custom/cargox") targetPinned.binary
        ⟨1, 2, 3, [], []⟩) = true) ∧
    run_application_plan cliPlain targetPinned envOverrideOnly
        (fun _ => some (str "/usr/bin/tool")) cachedEx ⟨false⟩ false
      = .installThenRun (ensure_installed_backend cliPlain false) :=
  ⟨⟨by decide, by decide, by decide⟩,
    (pinned_version_always_installs cliPlain targetPinned envOverrideOnly
        (fun _ => some (str "/usr/bin/tool")) cachedEx ⟨false⟩ false
        (str "/custom/cargox") ⟨1, 2, 3, [], []⟩
        (by decide) (by decide) (by decide)).1⟩

end Cargox
